import Mathlib

/-!
# faast-go: the permutation and sharding engine

A shallow embedding of `internal/permute/permute.go`.

* A Go slice of strings is a `List String`; a `[][]string` is a list of lists.
* A run-time panic (index out of range, slice bounds out of range) is `none`
  in an `Option`-valued function; `some` carries the normal result.
* `PermutationIterator.Next` mutates its receiver, so the embedding returns
  the new iterator state next to the returned pair.
* Cursor values stay inside `[0, len]`, so they are natural numbers; the
  running product of `CalculateTotalPermutations` is a Go `int` and is
  reduced to the 64-bit two's-complement range after every multiplication.
-/

set_option autoImplicit false

namespace Permute

/-! ## Data model -/

/-- The struct `PermutationIterator` of `permute.go`, lines 3-7. -/
structure PermutationIterator where
  lists : List (List String)
  indices : List Nat
  finished : Bool
deriving DecidableEq, Repr

/-- The constructor `NewPermutationIterator`, lines 9-14: `make([]int, len(lists))`
is a slice of `len(lists)` zeroes and `finished` has its zero value. -/
def NewPermutationIterator (lists : List (List String)) : PermutationIterator :=
  { lists := lists, indices := List.replicate lists.length 0, finished := false }

/-! ## `Next` -/

/-- The read loop of `Next`, lines 20-23: `result[i] = list[pi.indices[i]]` for
every `i, list` of `pi.lists`.  Either index expression panics when out of
range. -/
def readRow : List (List String) → List Nat → Option (List String)
  | [], _ => some []
  | _ :: _, [] => none
  | list :: lists, ix :: indices =>
    match list[ix]?, readRow lists indices with
    | some x, some result => some (x :: result)
    | _, _ => none

/-- The carry loop of `Next`, lines 25-34.  The first argument after `lists`
is `i + 1` for the loop variable `i`, so `0` is the loop exit `i < 0`. -/
def advance (lists : List (List String)) : Nat → List Nat → Bool → Option (List Nat × Bool)
  | 0, indices, finished => some (indices, finished)
  | i + 1, indices, finished =>
    match indices[i]?, lists[i]? with
    | some v, some list =>
      if v + 1 < list.length then some (indices.set i (v + 1), finished)
      else advance lists i (indices.set i 0) (if i = 0 then true else finished)
    | _, _ => none

/-- The method `PermutationIterator.Next`, lines 16-36.  The returned pair is
Go's `([]string, bool)`, with `none` for the nil slice; the second component
of the result is the iterator after the call. -/
def Next (pi : PermutationIterator) :
    Option ((Option (List String) × Bool) × PermutationIterator) :=
  if pi.finished then some ((none, false), pi)
  else
    match readRow pi.lists pi.indices with
    | none => none
    | some result =>
      match advance pi.lists pi.indices.length pi.indices pi.finished with
      | none => none
      | some (indices, finished) =>
        some ((some result, true), { pi with indices := indices, finished := finished })

/-- The `m`-th call (0-based) of `Next` in a sequence of calls on one iterator:
`m` calls are made first and their results dropped. -/
def nthNext : PermutationIterator → Nat →
    Option ((Option (List String) × Bool) × PermutationIterator)
  | pi, 0 => Next pi
  | pi, m + 1 =>
    match Next pi with
    | none => none
    | some (_, pi') => nthNext pi' m

/-! ## `IteratePermutations` -/

/-- How a run of `IteratePermutations` stands after a bounded number of loop
rounds, with the permutations sent on the channel so far. -/
inductive LoopOutcome where
  | returned (sent : List (List String))
  | panicked (sent : List (List String))
  | running (sent : List (List String))
deriving DecidableEq, Repr

/-- The function `IteratePermutations`, lines 83-91.  The `for` loop has no
bound of its own, so the embedding takes the number of rounds it may run;
`sent` accumulates the values written to `results`, whose receiver is taken
to accept every value. -/
def IteratePermutations : Nat → PermutationIterator → List (List String) → LoopOutcome
  | 0, _, sent => LoopOutcome.running sent
  | fuel + 1, permuter, sent =>
    match Next permuter with
    | none => LoopOutcome.panicked sent
    | some ((perm, ok), permuter') =>
      if !ok then LoopOutcome.returned sent
      else IteratePermutations fuel permuter' (sent ++ [perm.getD []])

/-! ## `ShardLists` -/

/-- The slice expression `s[start:end]` with `end <= len(s)`: it panics unless
`start <= end`.  (`ShardLists` clamps `end` to the length, so the capacity of
the slice never decides.) -/
def sliceExpr (s : List String) (start stop : Nat) : Option (List String) :=
  if start ≤ stop ∧ stop ≤ s.length then some ((s.take stop).drop start) else none

/-- The value stored in `shards[j][i]` by the fill loops, lines 51-68. -/
def shardCell (listOfLists : List (List String)) (n shardSize nthListLen j i : Nat) :
    Option (List String) :=
  if i = n then
    let start := j * shardSize
    let stop := start + shardSize
    let stop := if stop > nthListLen then nthListLen else stop
    match listOfLists[i]? with
    | some list => sliceExpr list start stop
    | none => none
  else listOfLists[i]?

/-- Lines 43-69 of `ShardLists`, past the guard: the shard size is the
rounded-up quotient, and every cell `shards[j][i]` is assigned exactly once, by
`shardCell`; a panic in any cell is a panic of the call.  The sum
`nthListLen + numOfShards - 1` stays an `int` for every `numOfShards` for which
the `make` of line 46 can allocate, so it is not reduced. -/
def fillShards (listOfLists : List (List String)) (n numOfShards : Nat) :
    Option (List (List (List String))) :=
  let nthListLen := (listOfLists.getD n []).length
  let shardSize := (nthListLen + numOfShards - 1) / numOfShards
  (List.range numOfShards).mapM fun j =>
    (List.range listOfLists.length).mapM fun i =>
      shardCell listOfLists n shardSize nthListLen j i

/-- The function `ShardLists`, lines 38-70.  `n` and `numOfShards` are Go ints;
past the guard of line 39 both are non-negative and are carried as naturals. -/
def ShardLists (listOfLists : List (List String)) (n numOfShards : Int) :
    Option (List (List (List String))) :=
  if listOfLists.length = 0 ∨ n < 0 ∨ n ≥ listOfLists.length ∨ numOfShards ≤ 0 then some []
  else fillShards listOfLists n.toNat numOfShards.toNat

/-! ## `CalculateTotalPermutations` -/

/-- Reduction of an integer to the range of a 64-bit Go `int`. -/
def wrapInt64 (x : Int) : Int := (x + 2 ^ 63) % 2 ^ 64 - 2 ^ 63

/-- The function `CalculateTotalPermutations`, lines 72-81. -/
def CalculateTotalPermutations (shardedLists : List (List (List String))) : Int :=
  match shardedLists with
  | [] => 0
  | first :: _ =>
    if first.length = 0 then 0
    else
      let total := first.foldl (fun total list => wrapInt64 (total * (list.length : Int))) 1
      wrapInt64 (total * (shardedLists.length : Int))

/-! ## Specification-level notions -/

/-- Digits of `m` in the mixed-radix system with radices `radices`, the first
radix most significant: digit `i` is `m / (product of the later radices)`
reduced modulo radix `i`. -/
def mixedRadix : List Nat → Nat → List Nat
  | [], _ => []
  | n :: ns, m => (m / ns.prod) % n :: mixedRadix ns m

/-- The permutation with index tuple `ix`: element `i` is `lists[i][ix[i]]`. -/
def selectAt : List (List String) → List Nat → List String
  | list :: lists, i :: ix => list.getD i "" :: selectAt lists ix
  | _, _ => []

/-- Lengths of the dimensions of a list set. -/
def dims (lists : List (List String)) : List Nat := lists.map List.length

/-- Number of index tuples of a list set: the product of its lengths. -/
def productSize (lists : List (List String)) : Nat := (dims lists).prod

/-- Value of a digit tuple in the mixed-radix system with radices `radices`:
each digit is weighted by the product of the later radices. -/
def radixValue : List Nat → List Nat → Nat
  | _ :: ns, d :: ds => d * ns.prod + radixValue ns ds
  | _, _ => 0

/-- The index tuples of a list set in mixed-radix counting order. -/
def indexTuples (lists : List (List String)) : List (List Nat) :=
  (List.range (productSize lists)).map (mixedRadix (dims lists))

/-- A shard-local index tuple carried to the original list set: the digit of
dimension `n` is moved by the start `c` of the shard's sub-range. -/
def shiftDigit : Nat → Nat → List Nat → List Nat
  | 0, c, d :: ds => (d + c) :: ds
  | i + 1, c, d :: ds => d :: shiftDigit i c ds
  | _, _, [] => []

/-- The sub-range `[j * shardSize, min((j + 1) * shardSize, L))` of a list of
length `L`. -/
def shardSlice (list : List String) (shardSize j : Nat) : List String :=
  (list.take (min (j * shardSize + shardSize) list.length)).drop (j * shardSize)

/-- The rounded-up quotient `ceil(L / numShards)`. -/
def ceilDiv (L numShards : Nat) : Nat := (L + numShards - 1) / numShards

/-- One increment of a mixed-radix counter, written by recursion on the digit
list: the result digits and whether the carry leaves the first digit. -/
def carryStep : List Nat → List Nat → List Nat × Bool
  | n :: ns, d :: ds =>
    let r := carryStep ns ds
    if r.2 then (if d + 1 < n then ((d + 1) :: r.1, false) else (0 :: r.1, true))
    else (d :: r.1, false)
  | _, _ => ([], true)

end Permute

/-! # The request side: `internal/curl`, `internal/config`, `internal/worker`, `cmd`

* An `error` value is its message; a function returning `(value, error)` is
  `Except`-valued, inside `Option` where the body indexes into slices.
* `net/url.QueryEscape` belongs to the Go standard library; the functions that
  call it take the escaping function as an argument, and `QueryEscape` below is
  a model of the library function for concrete inputs.
* Output on the terminal, closing of a response body and requests sent are
  recorded in order, as lists.
-/

namespace Curl

/-- The two fields of `http.Response` that the program reads. -/
structure Response where
  ContentLength : Int
  StatusCode : Int
deriving DecidableEq, Repr

/-- The struct `CurlConfig` of `curl.go`, lines 16-27, without the fields that
only `SendCurl` reads (cookies, rate limiter, user agent, HTTP client). -/
structure CurlConfig where
  ValidateType : String
  SizeDefault : Int
  CodeDefault : Int
  URL : String
  Fields : List String
  StaticValues : List String
deriving DecidableEq, Repr

/-- The method `CurlConfig.ValidateResponse`, lines 59-69.  The argument is a
pointer, `none` for nil; the result is `none` when the nil pointer is
dereferenced.  The second component is the text written by `fmt.Printf`. -/
def ValidateResponse (c : CurlConfig) (res : Option Response) : Option (Bool × List String) :=
  if c.ValidateType = "size" then
    match res with
    | some r => some (decide (r.ContentLength = c.SizeDefault), [])
    | none => none
  else if c.ValidateType = "code" then
    match res with
    | some r => some (decide (r.StatusCode = c.CodeDefault), [])
    | none => none
  else
    some (true,
      ["Warning: invalid validate type '" ++ c.ValidateType ++ "'. Defaulting to true.\n"])

/-- The loop of `ConstructPayload`, lines 102-111, from index `i` on: `payload`
is the content of the `strings.Builder`. -/
def payloadLoop (escape : String → String) (permutation staticValues : List String) :
    List String → Nat → String → Option String
  | [], _, payload => some payload
  | field :: fields, i, payload =>
    let payload := if i > 0 then payload ++ "&" else payload
    if i < permutation.length then
      match permutation[i]? with
      | some value =>
        payloadLoop escape permutation staticValues fields (i + 1)
          (payload ++ (escape field ++ "=" ++ escape value))
      | none => none
    else
      match staticValues[i - permutation.length]? with
      | some value =>
        payloadLoop escape permutation staticValues fields (i + 1)
          (payload ++ (escape field ++ "=" ++ escape value))
      | none => none

/-- The method `CurlConfig.ConstructPayload`, lines 96-114.  The returned
reader is the string it reads; `none` is an index out of range. -/
def ConstructPayload (escape : String → String) (c : CurlConfig) (permutation : List String) :
    Option (Except String String) :=
  if c.Fields.length ≠ permutation.length + c.StaticValues.length then
    some (Except.error "error: length of permutation and values are not equal")
  else
    match payloadLoop escape permutation c.StaticValues c.Fields 0 "" with
    | some payload => some (Except.ok payload)
    | none => none

/-- UTF-8 encoding of a character, as byte values. -/
def utf8Bytes (c : Char) : List Nat :=
  let n := c.toNat
  if n < 128 then [n]
  else if n < 2048 then [192 + n / 64, 128 + n % 64]
  else if n < 65536 then [224 + n / 4096, 128 + n / 64 % 64, 128 + n % 64]
  else [240 + n / 262144, 128 + n / 4096 % 64, 128 + n / 64 % 64, 128 + n % 64]

/-- An upper-case hexadecimal digit. -/
def upperHex (d : Nat) : Char := if d < 10 then Char.ofNat (48 + d) else Char.ofNat (55 + d)

/-- Bytes that `url.QueryEscape` leaves as they are: letters, digits and
`-`, `_`, `.`, `~`. -/
def unreserved (c : Char) : Bool :=
  c.isAlphanum || c = '-' || c = '_' || c = '.' || c = '~'

/-- A model of `net/url.QueryEscape`: unreserved bytes stay, a space becomes
`+`, every other byte becomes `%XX`. -/
def QueryEscape (s : String) : String :=
  String.mk (s.data.flatMap fun c =>
    if unreserved c then [c]
    else if c = ' ' then ['+']
    else (utf8Bytes c).flatMap fun b => ['%', upperHex (b / 16), upperHex (b % 16)])

/-- The pairing of the spec: field `i` goes with `permutation[i]` for
`i < len(permutation)` and with `staticValues[i - len(permutation)]` after;
each pair is `escape(key)=escape(value)` and the pairs are joined with `&`. -/
def formBody (escape : String → String) (fields permutation staticValues : List String) :
    String :=
  "&".intercalate
    (List.zipWith (fun field value => escape field ++ "=" ++ escape value) fields
      (permutation ++ staticValues))

end Curl

namespace Config

/-- The fields of the struct `YamlConfig` of `config.go`, lines 12-26, that
`Validate` reads; `Type_` is the field `Type`. -/
structure YamlConfig where
  Type_ : String
  Endpoint : String
  Fields : List String
  Wordlists : List String
  StaticValues : List String
deriving DecidableEq, Repr

/-- The method `YamlConfig.Validate`, lines 73-85: `none` is the nil error.
The three `fmt.Println` calls of lines 77-79 only print. -/
def Validate (c : YamlConfig) : Option String :=
  if c.Endpoint = "" then some "endpoint is required"
  else if c.Type_ = "payload" ∧ c.Fields.length ≠ c.Wordlists.length + c.StaticValues.length then
    some "number of fields must equal number of wordlists + staticValues"
  else none

end Config

namespace Worker

/-- The struct `CurlResult` of `worker.go`, lines 14-18; `none` is nil. -/
structure CurlResult where
  Payload : List String
  Response : Option Curl.Response
  Err : Option String
deriving DecidableEq, Repr

/-- What one worker has done so far: the results written to `resultChan`, the
bodies handed to `SendCurl`, and the count of the progress bar. -/
structure WorkerTrace where
  results : List CurlResult
  requests : List String
  progress : Nat
deriving DecidableEq, Repr

/-- The method `WorkerPool.worker`, lines 55-66, over the permutations it
dequeues.  `send k body` is the outcome of `SendCurl` on the `k`-th request of
this worker: a response or an error. -/
def worker (escape : String → String) (config : Curl.CurlConfig)
    (send : Nat → String → Except String Curl.Response) :
    List (List String) → WorkerTrace → Option WorkerTrace
  | [], trace => some trace
  | perm :: perms, trace =>
    match Curl.ConstructPayload escape config perm with
    | none => none
    | some (Except.error err) =>
      worker escape config send perms
        { trace with results := trace.results ++ [{ Payload := perm, Response := none, Err := some err }] }
    | some (Except.ok payload) =>
      match send trace.requests.length payload with
      | Except.ok res =>
        worker escape config send perms
          { results := trace.results ++ [{ Payload := perm, Response := some res, Err := none }],
            requests := trace.requests ++ [payload],
            progress := trace.progress + 1 }
      | Except.error err =>
        worker escape config send perms
          { results := trace.results ++ [{ Payload := perm, Response := none, Err := some err }],
            requests := trace.requests ++ [payload],
            progress := trace.progress + 1 }

end Worker

namespace Main

/-- What `ProcessResults` does that can be observed, in order. -/
inductive Event where
  | printed (text : String)
  | printedError (err : String)
  | printedAnomaly (payload : List String)
  | closedBody (payload : List String) (res : Curl.Response)
deriving DecidableEq, Repr

/-- The function `ProcessResults` of `main.go`, lines 70-81, over the results
it receives; `none` is a nil-pointer panic. -/
def ProcessResults (loadedConfig : Curl.CurlConfig) :
    List Worker.CurlResult → List Event → Option (List Event)
  | [], events => some events
  | result :: results, events =>
    match result.Err with
    | some err => ProcessResults loadedConfig results (events ++ [Event.printedError err])
    | none =>
      match Curl.ValidateResponse loadedConfig result.Response with
      | none => none
      | some (valid, texts) =>
        let events := events ++ texts.map Event.printed
        if !valid then
          match result.Response with
          | some res =>
            ProcessResults loadedConfig results
              (events ++ [Event.printedAnomaly result.Payload,
                Event.closedBody result.Payload res])
          | none => none
        else ProcessResults loadedConfig results events

/-- The producers of `main`, lines 37-52 of `main.go`: `ShardLists` is called
on the wordlists, and every shard it returns gets a fresh iterator and a run of
`IteratePermutations`.  The result lists, per shard, how the run stands after
at most `fuel` rounds and what it has sent; `none` is a panic of `ShardLists`.
No iterator is built in any other place of the program. -/
def mainProducers (fuel : Nat) (wordlists : List (List String)) (shardIndex numShards : Int) :
    Option (List Permute.LoopOutcome) :=
  match Permute.ShardLists wordlists shardIndex numShards with
  | none => none
  | some shardedLists =>
    some (shardedLists.map fun list =>
      Permute.IteratePermutations fuel (Permute.NewPermutationIterator list) [])

end Main

namespace Permute

/-! ## The carry loop is a mixed-radix increment -/

theorem carryStep_snoc (ns ds : List Nat) (n d : Nat) (h : ns.length = ds.length) :
    carryStep (ns ++ [n]) (ds ++ [d]) =
      if d + 1 < n then (ds ++ [d + 1], false)
      else ((carryStep ns ds).1 ++ [0], (carryStep ns ds).2) := by
  induction ns generalizing ds with
  | nil =>
    cases ds with
    | nil => simp [carryStep]
    | cons b ds => simp at h
  | cons a ns ih =>
    cases ds with
    | nil => simp at h
    | cons b ds =>
      have hlen : ns.length = ds.length := by simpa using h
      have ih' := ih ds hlen
      rw [List.cons_append, List.cons_append, carryStep, carryStep, ih']
      by_cases hd : d + 1 < n
      · simp [hd]
      · simp only [hd, if_false]
        cases hc : (carryStep ns ds).2 <;> by_cases hb : b + 1 < a <;> simp [hb]

theorem advance_append (lists : List (List String)) :
    ∀ (i : Nat) (pre suf : List Nat) (finished : Bool), pre.length = i → i ≤ lists.length →
      advance lists i (pre ++ suf) finished =
        some ((carryStep (dims (lists.take i)) pre).1 ++ suf,
          finished || ((carryStep (dims (lists.take i)) pre).2 && decide (i ≠ 0))) := by
  intro i
  induction i with
  | zero =>
    intro pre suf finished hpre _
    have : pre = [] := List.length_eq_zero.mp hpre
    subst this
    simp [advance, carryStep, dims]
  | succ i ih =>
    intro pre suf finished hpre hi
    obtain ⟨pre', d, rfl⟩ : ∃ pre' d, pre = pre' ++ [d] := by
      refine ⟨pre.dropLast, pre.getLast (by intro h; simp [h] at hpre), ?_⟩
      exact (List.dropLast_append_getLast _).symm
    have hpre' : pre'.length = i := by simpa using hpre
    have hlt : i < lists.length := hi
    have htake : lists.take (i + 1) = lists.take i ++ [lists[i]] := by
      rw [List.take_succ, List.getElem?_eq_getElem hlt]; rfl
    have hix : (pre' ++ d :: suf)[i]? = some d := by
      rw [List.getElem?_append_right (by omega)]
      simp [hpre']
    have hset : ∀ v, (pre' ++ d :: suf).set i v = pre' ++ (v :: suf) := by
      intro v
      rw [List.set_append_right _ _ (by omega)]
      simp [hpre']
    have hdl : (dims (lists.take i)).length = pre'.length := by
      simp [dims, hpre']; omega
    rw [List.append_assoc, List.singleton_append, advance, hix, List.getElem?_eq_getElem hlt]
    simp only [htake, dims, List.map_append, List.map_cons, List.map_nil]
    rw [carryStep_snoc _ _ _ _ (by simpa [dims] using hdl)]
    by_cases hd : d + 1 < lists[i].length
    · simp [hd, hset]
    · simp only [hd, if_false, hset]
      rw [ih pre' (0 :: suf) _ hpre' (by omega)]
      by_cases hi0 : i = 0
      · subst hi0
        have : pre' = [] := List.length_eq_zero.mp hpre'
        subst this
        simp [carryStep, dims]
      · simp [hi0, dims]

theorem dims_prod_pos (ns : List Nat) (hpos : ∀ n ∈ ns, 0 < n) : 0 < ns.prod := by
  induction ns with
  | nil => simp
  | cons n ns ih =>
    rw [List.prod_cons]
    exact Nat.mul_pos (hpos n (by simp)) (ih fun k hk => hpos k (by simp [hk]))

theorem succ_mod_of_mod (q n : Nat) : (q + 1) % n = (q % n + 1) % n := by
  conv_lhs => rw [← Nat.div_add_mod q n]
  rw [Nat.add_assoc, Nat.mul_add_mod]

theorem carryStep_mixedRadix (ns : List Nat) (hpos : ∀ n ∈ ns, 0 < n) (m : Nat) :
    carryStep ns (mixedRadix ns m) =
      (mixedRadix ns (m + 1), decide ((m + 1) % ns.prod = 0)) := by
  induction ns with
  | nil => simp [carryStep, mixedRadix, Nat.mod_one]
  | cons n ns ih =>
    have hn : 0 < n := hpos n (by simp)
    have hP : 0 < ns.prod := dims_prod_pos ns fun k hk => hpos k (by simp [hk])
    have ih' := ih fun k hk => hpos k (by simp [hk])
    rw [mixedRadix, carryStep, ih', mixedRadix, List.prod_cons]
    by_cases hc : (m + 1) % ns.prod = 0
    · have hdvd : ns.prod ∣ m + 1 := Nat.dvd_of_mod_eq_zero hc
      have hq : (m + 1) / ns.prod = m / ns.prod + 1 := Nat.succ_div_of_dvd hdvd
      have hmul : m + 1 = ns.prod * (m / ns.prod + 1) := by
        rw [← hq, Nat.mul_div_cancel' hdvd]
      have hiff : (m + 1) % (n * ns.prod) = 0 ↔ (m / ns.prod + 1) % n = 0 := by
        rw [← Nat.dvd_iff_mod_eq_zero, ← Nat.dvd_iff_mod_eq_zero]
        conv_lhs => rw [hmul, Nat.mul_comm n]
        exact Nat.mul_dvd_mul_iff_left hP
      have hlt : m / ns.prod % n < n := Nat.mod_lt _ hn
      by_cases hd : m / ns.prod % n + 1 < n
      · have hval : (m / ns.prod + 1) % n = m / ns.prod % n + 1 := by
          rw [succ_mod_of_mod, Nat.mod_eq_of_lt hd]
        have hne : ¬ (m + 1) % (n * ns.prod) = 0 := by
          rw [hiff, hval]; omega
        simp [hc, hd, hq, hval, hne]
      · have hval : (m / ns.prod + 1) % n = 0 := by
          rw [succ_mod_of_mod]
          have : m / ns.prod % n + 1 = n := by omega
          rw [this, Nat.mod_self]
        have he : (m + 1) % (n * ns.prod) = 0 := hiff.mpr hval
        simp [hc, hd, hq, hval, he]
    · have hndvd : ¬ ns.prod ∣ m + 1 := fun h => hc (Nat.mod_eq_zero_of_dvd h)
      have hq : (m + 1) / ns.prod = m / ns.prod := Nat.succ_div_of_not_dvd hndvd
      have hne : ¬ (m + 1) % (n * ns.prod) = 0 := by
        intro h
        exact hndvd (Dvd.dvd.trans (Dvd.intro_left n rfl) (Nat.dvd_of_mod_eq_zero h))
      simp [hc, hq, hne]

theorem mixedRadix_length (ns : List Nat) (m : Nat) : (mixedRadix ns m).length = ns.length := by
  induction ns with
  | nil => rfl
  | cons n ns ih => simp [mixedRadix, ih]

theorem mixedRadix_zero (ns : List Nat) : mixedRadix ns 0 = List.replicate ns.length 0 := by
  induction ns with
  | nil => rfl
  | cons n ns ih => simp [mixedRadix, ih, List.replicate_succ]

theorem dims_pos (lists : List (List String)) (hne : ∀ l ∈ lists, l ≠ []) :
    ∀ n ∈ dims lists, 0 < n := by
  intro n hn
  obtain ⟨l, hl, rfl⟩ := List.mem_map.mp hn
  exact List.length_pos.mpr (hne l hl)

theorem readRow_mixedRadix (lists : List (List String)) (hne : ∀ l ∈ lists, l ≠ []) (m : Nat) :
    readRow lists (mixedRadix (dims lists) m) = some (selectAt lists (mixedRadix (dims lists) m)) := by
  induction lists with
  | nil => simp [readRow, selectAt, dims, mixedRadix]
  | cons l ls ih =>
    have hl : 0 < l.length := List.length_pos.mpr (hne l (by simp))
    have ih' := ih fun k hk => hne k (by simp [hk])
    have hlt : m / (dims ls).prod % l.length < l.length := Nat.mod_lt _ hl
    simp only [dims, List.map_cons, mixedRadix, readRow, selectAt] at ih' hlt ⊢
    rw [ih', List.getElem?_eq_getElem hlt]
    simp [List.getD_eq_getElem?_getD, List.getElem?_eq_getElem hlt]

theorem selectAt_length (lists : List (List String)) (ix : List Nat)
    (h : ix.length = lists.length) : (selectAt lists ix).length = lists.length := by
  induction lists generalizing ix with
  | nil => cases ix <;> simp [selectAt]
  | cons l ls ih =>
    cases ix with
    | nil => simp at h
    | cons i ix => simp [selectAt, ih ix (by simpa using h)]

/-- One call of `Next` on an unfinished iterator whose cursor holds the digits
of `m`: it returns the permutation at those digits and moves to the digits of
`m + 1`, finished exactly when the counter wraps. -/
theorem Next_mixedRadix (lists : List (List String)) (hk : lists ≠ [])
    (hne : ∀ l ∈ lists, l ≠ []) (m : Nat) :
    Next ⟨lists, mixedRadix (dims lists) m, false⟩ =
      some ((some (selectAt lists (mixedRadix (dims lists) m)), true),
        ⟨lists, mixedRadix (dims lists) (m + 1), decide ((m + 1) % productSize lists = 0)⟩) := by
  have hlen : (mixedRadix (dims lists) m).length = lists.length := by
    rw [mixedRadix_length]; simp [dims]
  have hadv := advance_append lists lists.length (mixedRadix (dims lists) m) [] false hlen
    (Nat.le_refl _)
  rw [List.append_nil, List.take_length, carryStep_mixedRadix _ (dims_pos lists hne)] at hadv
  have hk' : lists.length ≠ 0 := fun h => hk (List.length_eq_zero.mp h)
  simp only [Next, readRow_mixedRadix lists hne, hlen, hadv]
  simp [hk', productSize]

theorem Next_finished (lists : List (List String)) (ix : List Nat) :
    Next ⟨lists, ix, true⟩ = some ((none, false), ⟨lists, ix, true⟩) := by
  simp [Next]

theorem nthNext_finished (lists : List (List String)) (ix : List Nat) (m : Nat) :
    nthNext ⟨lists, ix, true⟩ m = some ((none, false), ⟨lists, ix, true⟩) := by
  induction m with
  | zero => simp [nthNext, Next_finished]
  | succ m ih => simp [nthNext, Next_finished, ih]

theorem nthNext_mixedRadix (lists : List (List String)) (hk : lists ≠ [])
    (hne : ∀ l ∈ lists, l ≠ []) :
    ∀ (m j : Nat), j + m < productSize lists →
      nthNext ⟨lists, mixedRadix (dims lists) j, false⟩ m =
        some ((some (selectAt lists (mixedRadix (dims lists) (j + m))), true),
          ⟨lists, mixedRadix (dims lists) (j + m + 1),
            decide (j + m + 1 = productSize lists)⟩) := by
  intro m
  induction m with
  | zero =>
    intro j hj
    have hdec : ((j + 1) % productSize lists = 0) ↔ (j + 1 = productSize lists) := by
      constructor
      · intro h
        have hle : productSize lists ≤ j + 1 :=
          Nat.le_of_dvd (Nat.succ_pos j) (Nat.dvd_of_mod_eq_zero h)
        omega
      · intro h; rw [h, Nat.mod_self]
    simp only [nthNext, Next_mixedRadix lists hk hne, Nat.add_zero, hdec]
  | succ m ih =>
    intro j hj
    have hmod : (j + 1) % productSize lists = j + 1 := Nat.mod_eq_of_lt (by omega)
    have hstep := Next_mixedRadix lists hk hne j
    rw [hmod] at hstep
    simp only [Nat.succ_ne_zero, decide_False] at hstep
    rw [nthNext, hstep]
    have := ih (j + 1) (by omega)
    simp only [this]
    have e : j + 1 + m = j + (m + 1) := by omega
    rw [e]

theorem nthNext_add (pi : PermutationIterator) (a b : Nat) :
    nthNext pi (a + 1 + b) =
      match nthNext pi a with
      | none => none
      | some (_, pi') => nthNext pi' b := by
  induction a generalizing pi with
  | zero =>
    have e : 0 + 1 + b = b + 1 := by omega
    rw [e, nthNext, nthNext]
  | succ a ih =>
    have e : a + 1 + 1 + b = (a + 1 + b) + 1 := by omega
    rw [e, nthNext]
    conv_rhs => rw [nthNext]
    cases h : Next pi with
    | none => rfl
    | some r => exact ih r.2

theorem new_eq_mixedRadix_zero (lists : List (List String)) :
    NewPermutationIterator lists = ⟨lists, mixedRadix (dims lists) 0, false⟩ := by
  simp [NewPermutationIterator, mixedRadix_zero, dims]

theorem radixValue_mixedRadix (ns : List Nat) (m : Nat) :
    radixValue ns (mixedRadix ns m) = m % ns.prod := by
  induction ns with
  | nil => simp [radixValue, mixedRadix, Nat.mod_one]
  | cons n ns ih =>
    rw [mixedRadix, radixValue, ih, List.prod_cons, Nat.mul_comm n, Nat.mod_mul]
    rw [Nat.mul_comm, Nat.add_comm]

theorem mixedRadix_lt (ns : List Nat) (hpos : ∀ n ∈ ns, 0 < n) (m : Nat) :
    List.Forall₂ (fun d n => d < n) (mixedRadix ns m) ns := by
  induction ns with
  | nil => simp [mixedRadix]
  | cons n ns ih =>
    rw [mixedRadix]
    exact List.Forall₂.cons (Nat.mod_lt _ (hpos n (by simp)))
      (ih fun k hk => hpos k (by simp [hk]))

theorem readRow_none_of_empty (lists : List (List String)) (h : [] ∈ lists) :
    readRow lists (List.replicate lists.length 0) = none := by
  induction lists with
  | nil => simp at h
  | cons l ls ih =>
    rw [List.length_cons, List.replicate_succ, readRow]
    rcases List.mem_cons.mp h with hl | hl
    · subst hl; simp
    · rw [ih hl]
      cases l[0]? <;> rfl

/-- With a zero-length dimension anywhere in the list set, the first `Next`
of a fresh iterator indexes into the empty list and panics. -/
theorem Next_new_of_empty_dimension (lists : List (List String)) (h : [] ∈ lists) :
    Next (NewPermutationIterator lists) = none := by
  simp [Next, NewPermutationIterator, readRow_none_of_empty lists h]

theorem Next_new_nil :
    Next (NewPermutationIterator []) = some ((some [], true), NewPermutationIterator []) := by
  decide

theorem Next_mixedRadix_lt (lists : List (List String)) (hk : lists ≠ [])
    (hne : ∀ l ∈ lists, l ≠ []) (m : Nat) (hm : m < productSize lists) :
    Next ⟨lists, mixedRadix (dims lists) m, false⟩ =
      some ((some (selectAt lists (mixedRadix (dims lists) m)), true),
        ⟨lists, mixedRadix (dims lists) (m + 1), decide (m + 1 = productSize lists)⟩) := by
  have h := nthNext_mixedRadix lists hk hne 0 m (by omega)
  simpa [nthNext] using h

theorem IteratePermutations_from (lists : List (List String)) (hk : lists ≠ [])
    (hne : ∀ l ∈ lists, l ≠ []) :
    ∀ (r j : Nat) (sent : List (List String)), j + (r + 1) = productSize lists →
      IteratePermutations (r + 2) ⟨lists, mixedRadix (dims lists) j, false⟩ sent =
        LoopOutcome.returned
          (sent ++ (List.range' j (r + 1)).map fun m => selectAt lists (mixedRadix (dims lists) m)) := by
  intro r
  induction r with
  | zero =>
    intro j sent hj
    rw [IteratePermutations, Next_mixedRadix_lt lists hk hne j (by omega)]
    simp only [Bool.not_true, Bool.false_eq_true, if_false, Option.getD_some]
    have hfin : decide (j + 1 = productSize lists) = true := by simpa using hj
    rw [hfin, IteratePermutations, Next_finished]
    simp [List.range'_succ]
  | succ r ih =>
    intro j sent hj
    rw [IteratePermutations, Next_mixedRadix_lt lists hk hne j (by omega)]
    simp only [Bool.not_true, Bool.false_eq_true, if_false, Option.getD_some]
    have hfin : decide (j + 1 = productSize lists) = false := by
      simp only [decide_eq_false_iff_not]; omega
    rw [hfin, ih (j + 1) _ (by omega), List.range'_succ j (r + 1)]
    simp

/-- Run to exhaustion: on a list set with at least one dimension, all
non-empty, `IteratePermutations` returns after `N + 1` calls of `Next`, having
sent the `N` permutations of the index tuples in counting order. -/
theorem IteratePermutations_returns (lists : List (List String)) (hk : lists ≠ [])
    (hne : ∀ l ∈ lists, l ≠ []) :
    IteratePermutations (productSize lists + 1) (NewPermutationIterator lists) [] =
      LoopOutcome.returned ((indexTuples lists).map (selectAt lists)) := by
  have hN : 0 < productSize lists := dims_prod_pos _ (dims_pos lists hne)
  obtain ⟨r, hr⟩ : ∃ r, productSize lists = r + 1 := ⟨productSize lists - 1, by omega⟩
  have h := IteratePermutations_from lists hk hne r 0 [] (by omega)
  rw [new_eq_mixedRadix_zero, hr, h, indexTuples, hr, List.range_eq_range']
  simp [List.map_map, Function.comp_def]

/-! ## Index tuples: every in-range tuple once -/

theorem pos_of_prod_pos (ns : List Nat) (h : 0 < ns.prod) : ∀ n ∈ ns, 0 < n := by
  induction ns with
  | nil => intro n hn; simp at hn
  | cons a ns ih =>
    rw [List.prod_cons] at h
    intro n hn
    rcases List.mem_cons.mp hn with rfl | hn
    · exact Nat.pos_of_mul_pos_right h
    · exact ih (Nat.pos_of_mul_pos_left h) n hn

theorem mixedRadix_add_mul_prod (ns : List Nat) (m c : Nat) :
    mixedRadix ns (m + c * ns.prod) = mixedRadix ns m := by
  induction ns generalizing c with
  | nil => rfl
  | cons n ns ih =>
    rw [mixedRadix, mixedRadix, List.prod_cons]
    have e : c * (n * ns.prod) = (c * n) * ns.prod := by rw [Nat.mul_assoc]
    rw [e, ih]
    congr 1
    rcases Nat.eq_zero_or_pos ns.prod with h0 | hP
    · simp [h0]
    · rw [Nat.add_mul_div_right _ _ hP, Nat.add_mul_mod_self_right]

theorem radixValue_lt (ns t : List Nat) (h : List.Forall₂ (fun d n => d < n) t ns) :
    radixValue ns t < ns.prod := by
  induction h with
  | nil => simp [radixValue]
  | @cons d n ds ns hd _ ih =>
    rw [radixValue, List.prod_cons]
    calc d * ns.prod + radixValue ns ds < d * ns.prod + ns.prod := by omega
      _ = (d + 1) * ns.prod := by rw [Nat.succ_mul]
      _ ≤ n * ns.prod := Nat.mul_le_mul_right _ hd

theorem mixedRadix_radixValue (ns t : List Nat) (h : List.Forall₂ (fun d n => d < n) t ns) :
    mixedRadix ns (radixValue ns t) = t := by
  induction h with
  | nil => rfl
  | @cons d n ds ns hd hrest ih =>
    have hv := radixValue_lt ns ds hrest
    have hP : 0 < ns.prod := by omega
    rw [radixValue, mixedRadix, Nat.add_comm, mixedRadix_add_mul_prod, ih]
    congr 1
    rw [Nat.add_mul_div_right _ _ hP, Nat.div_eq_of_lt hv, Nat.zero_add, Nat.mod_eq_of_lt hd]

theorem mem_tuples_iff (ns t : List Nat) :
    t ∈ (List.range ns.prod).map (mixedRadix ns) ↔ List.Forall₂ (fun d n => d < n) t ns := by
  constructor
  · intro h
    obtain ⟨m, hm, rfl⟩ := List.mem_map.mp h
    have hm' : m < ns.prod := List.mem_range.mp hm
    exact mixedRadix_lt ns (pos_of_prod_pos ns (by omega)) m
  · intro h
    exact List.mem_map.mpr
      ⟨radixValue ns t, List.mem_range.mpr (radixValue_lt ns t h), mixedRadix_radixValue ns t h⟩

theorem nodup_tuples (ns : List Nat) : ((List.range ns.prod).map (mixedRadix ns)).Nodup := by
  apply List.Nodup.map_on _ (List.nodup_range _)
  intro a ha b hb hab
  have h := congrArg (radixValue ns) hab
  rw [radixValue_mixedRadix, radixValue_mixedRadix,
    Nat.mod_eq_of_lt (List.mem_range.mp ha), Nat.mod_eq_of_lt (List.mem_range.mp hb)] at h
  exact h

/-! ## Shard-local index tuples in the coordinates of the original list set -/

theorem shiftDigit_valid :
    ∀ (n : Nat) (ns t' : List Nat) (c len' : Nat), n < ns.length → len' + c ≤ ns.getD n 0 →
      List.Forall₂ (fun d r => d < r) t' (ns.set n len') →
      List.Forall₂ (fun d r => d < r) (shiftDigit n c t') ns ∧
        (shiftDigit n c t').getD n 0 = t'.getD n 0 + c ∧ t'.getD n 0 < len' := by
  intro n
  induction n with
  | zero =>
    intro ns t' c len' hn hc h
    cases ns with
    | nil => simp at hn
    | cons a ns =>
      rw [List.set_cons_zero] at h
      obtain ⟨d, ds, hd, hds, rfl⟩ := List.forall₂_cons_right_iff.mp h
      simp only [List.getD_cons_zero] at hc
      refine ⟨?_, by simp [shiftDigit], by simpa using hd⟩
      rw [shiftDigit]
      exact List.Forall₂.cons (by omega) hds
  | succ n ih =>
    intro ns t' c len' hn hc h
    cases ns with
    | nil => simp at hn
    | cons a ns =>
      rw [List.set_cons_succ] at h
      obtain ⟨d, ds, hd, hds, rfl⟩ := List.forall₂_cons_right_iff.mp h
      have hn' : n < ns.length := by simpa using hn
      have hc' : len' + c ≤ ns.getD n 0 := by simpa using hc
      obtain ⟨h1, h2, h3⟩ := ih ns ds c len' hn' hc' hds
      refine ⟨?_, by simpa [shiftDigit] using h2, by simpa using h3⟩
      rw [shiftDigit]
      exact List.Forall₂.cons hd h1

theorem shiftDigit_surj :
    ∀ (n : Nat) (ns t : List Nat) (c len' : Nat), n < ns.length →
      List.Forall₂ (fun d r => d < r) t ns → c ≤ t.getD n 0 → t.getD n 0 < c + len' →
      ∃ t', List.Forall₂ (fun d r => d < r) t' (ns.set n len') ∧ shiftDigit n c t' = t := by
  intro n
  induction n with
  | zero =>
    intro ns t c len' hn h hc1 hc2
    cases ns with
    | nil => simp at hn
    | cons a ns =>
      obtain ⟨d, ds, hd, hds, rfl⟩ := List.forall₂_cons_right_iff.mp h
      simp only [List.getD_cons_zero] at hc1 hc2
      refine ⟨(d - c) :: ds, ?_, ?_⟩
      · rw [List.set_cons_zero]
        exact List.Forall₂.cons (by omega) hds
      · rw [shiftDigit, Nat.sub_add_cancel hc1]
  | succ n ih =>
    intro ns t c len' hn h hc1 hc2
    cases ns with
    | nil => simp at hn
    | cons a ns =>
      obtain ⟨d, ds, hd, hds, rfl⟩ := List.forall₂_cons_right_iff.mp h
      have hn' : n < ns.length := by simpa using hn
      obtain ⟨t', h1, h2⟩ := ih ns ds c len' hn' hds (by simpa using hc1) (by simpa using hc2)
      refine ⟨d :: t', ?_, ?_⟩
      · rw [List.set_cons_succ]
        exact List.Forall₂.cons hd h1
      · rw [shiftDigit, h2]

theorem shiftDigit_injective (n c : Nat) : Function.Injective (shiftDigit n c) := by
  induction n with
  | zero =>
    intro t1 t2 h
    cases t1 <;> cases t2 <;> simp_all [shiftDigit]
  | succ n ih =>
    intro t1 t2 h
    cases t1 with
    | nil => cases t2 <;> simp_all [shiftDigit]
    | cons a t1 =>
      cases t2 with
      | nil => simp [shiftDigit] at h
      | cons b t2 =>
        simp only [shiftDigit, List.cons.injEq] at h
        rw [h.1, ih h.2]

theorem getD_drop_take (l : List String) (c e d : Nat)
    (h : d < ((l.take e).drop c).length) :
    ((l.take e).drop c).getD d "" = l.getD (d + c) "" := by
  have h' : c + d < e := by
    simp only [List.length_drop, List.length_take] at h
    omega
  simp only [List.getD_eq_getElem?_getD, List.getElem?_drop, List.getElem?_take_of_lt h',
    Nat.add_comm]

theorem selectAt_set_slice :
    ∀ (n : Nat) (lists : List (List String)) (t' : List Nat) (c e : Nat),
      t'.getD n 0 < (((lists.getD n []).take e).drop c).length →
      selectAt (lists.set n (((lists.getD n []).take e).drop c)) t' =
        selectAt lists (shiftDigit n c t') := by
  intro n
  induction n with
  | zero =>
    intro lists t' c e h
    cases lists with
    | nil => simp [selectAt]
    | cons l ls =>
      cases t' with
      | nil => simp [selectAt, shiftDigit]
      | cons d ds =>
        simp only [List.getD_cons_zero] at h
        simp only [List.set_cons_zero, List.getD_cons_zero, selectAt, shiftDigit]
        rw [getD_drop_take l c e d h]
  | succ n ih =>
    intro lists t' c e h
    cases lists with
    | nil => simp [selectAt]
    | cons l ls =>
      cases t' with
      | nil => simp [selectAt, shiftDigit]
      | cons d ds =>
        simp only [List.getD_cons_succ] at h
        simp only [List.set_cons_succ, List.getD_cons_succ, selectAt, shiftDigit]
        rw [ih ls ds c e h]

/-! ## Claims on `PermutationIterator` -/

/-- C1: for a list set with at least one dimension, all dimensions non-empty,
the `m`-th call (0-based, `m` below the product of the lengths) of `Next` on
a fresh iterator returns, with `ok = true`, the permutation whose index tuple
is the mixed-radix representation of `m`, dimension 0 most significant; that
tuple has every digit below its radix and has value `m`. -/
theorem next_mixed_radix_order (lists : List (List String)) (m : Nat)
    (hk : 1 ≤ lists.length) (hne : ∀ l ∈ lists, l ≠ []) (hm : m < productSize lists) :
    (∃ pi', nthNext (NewPermutationIterator lists) m =
      some ((some (selectAt lists (mixedRadix (dims lists) m)), true), pi')) ∧
    List.Forall₂ (fun d n => d < n) (mixedRadix (dims lists) m) (dims lists) ∧
    radixValue (dims lists) (mixedRadix (dims lists) m) = m := by
  have hk' : lists ≠ [] := by
    intro h; simp [h] at hk
  refine ⟨?_, mixedRadix_lt _ (dims_pos lists hne) m, ?_⟩
  · rw [new_eq_mixedRadix_zero]
    have h := nthNext_mixedRadix lists hk' hne m 0 (by omega)
    rw [Nat.zero_add] at h
    exact ⟨_, h⟩
  · rw [radixValue_mixedRadix]
    exact Nat.mod_eq_of_lt hm

/-- C1 at the list set of the test: `[a,1]`, `[a,2]`, `[b,1]`, `[b,2]`. -/
theorem next_mixed_radix_order_witness :
    (∃ pi', nthNext (NewPermutationIterator [["a", "b"], ["1", "2"]]) 0 =
      some ((some ["a", "1"], true), pi')) ∧
    (∃ pi', nthNext (NewPermutationIterator [["a", "b"], ["1", "2"]]) 1 =
      some ((some ["a", "2"], true), pi')) ∧
    (∃ pi', nthNext (NewPermutationIterator [["a", "b"], ["1", "2"]]) 2 =
      some ((some ["b", "1"], true), pi')) ∧
    (∃ pi', nthNext (NewPermutationIterator [["a", "b"], ["1", "2"]]) 3 =
      some ((some ["b", "2"], true), pi')) :=
  ⟨(next_mixed_radix_order [["a", "b"], ["1", "2"]] 0 (by decide) (by decide) (by decide)).1,
   (next_mixed_radix_order [["a", "b"], ["1", "2"]] 1 (by decide) (by decide) (by decide)).1,
   (next_mixed_radix_order [["a", "b"], ["1", "2"]] 2 (by decide) (by decide) (by decide)).1,
   (next_mixed_radix_order [["a", "b"], ["1", "2"]] 3 (by decide) (by decide) (by decide)).1⟩

/-- C2: for a list set with at least one dimension, all non-empty, a fresh
iterator returns `(permutation, true)` with a permutation of length `k` on each
of its first `n1 * ... * nk` calls of `Next`, and `(nil, false)` on every call
from the next one on. -/
theorem next_count_then_exhausted (lists : List (List String))
    (hk : 1 ≤ lists.length) (hne : ∀ l ∈ lists, l ≠ []) :
    (∀ m, m < productSize lists →
      ∃ perm pi', nthNext (NewPermutationIterator lists) m = some ((some perm, true), pi') ∧
        perm.length = lists.length) ∧
    (∀ m, productSize lists ≤ m →
      ∃ pi', nthNext (NewPermutationIterator lists) m = some ((none, false), pi')) := by
  have hk' : lists ≠ [] := by
    intro h; simp [h] at hk
  have hN : 0 < productSize lists := dims_prod_pos _ (dims_pos lists hne)
  constructor
  · intro m hm
    have h := nthNext_mixedRadix lists hk' hne m 0 (by omega)
    rw [Nat.zero_add] at h
    rw [new_eq_mixedRadix_zero, h]
    refine ⟨_, _, rfl, ?_⟩
    rw [selectAt_length]
    rw [mixedRadix_length]; simp [dims]
  · intro m hm
    obtain ⟨r, rfl⟩ : ∃ r, m = (productSize lists - 1) + 1 + r := ⟨m - productSize lists, by omega⟩
    have h := nthNext_mixedRadix lists hk' hne (productSize lists - 1) 0 (by omega)
    rw [Nat.zero_add, Nat.sub_add_cancel hN] at h
    rw [new_eq_mixedRadix_zero, nthNext_add, h]
    simp only [decide_True]
    exact ⟨_, nthNext_finished _ _ r⟩

/-- C2 at the list set of the test: four permutations of length 2, then
`(nil, false)`. -/
theorem next_count_then_exhausted_witness :
    (∀ m, m < productSize [["a", "b"], ["1", "2"]] →
      ∃ perm pi', nthNext (NewPermutationIterator [["a", "b"], ["1", "2"]]) m =
        some ((some perm, true), pi') ∧ perm.length = 2) ∧
    (∀ m, productSize [["a", "b"], ["1", "2"]] ≤ m →
      ∃ pi', nthNext (NewPermutationIterator [["a", "b"], ["1", "2"]]) m =
        some ((none, false), pi')) :=
  next_count_then_exhausted [["a", "b"], ["1", "2"]] (by decide) (by decide)

/-- C3: on the list set `[["a"], []]`, whose second dimension has length 0,
the first `Next` of a fresh iterator does not return `(nil, false)`: the read
`list[pi.indices[i]]` of line 22 is out of range and the call panics. -/
theorem next_empty_dimension_panics :
    Next (NewPermutationIterator [["a"], []]) = none ∧
    IteratePermutations 1 (NewPermutationIterator [["a"], []]) [] = LoopOutcome.panicked [] := by
  decide

/-- An iterator built by hand on the list set with zero dimensions: every call
of `Next` returns the empty permutation with `ok = true` and leaves the
iterator unfinished, so `IteratePermutations` sends one empty permutation per
round and is still running after any number of rounds. -/
theorem next_zero_dimensions_never_exhausted :
    (∀ m, nthNext (NewPermutationIterator []) m =
      some ((some [], true), NewPermutationIterator [])) ∧
    (∀ fuel, IteratePermutations fuel (NewPermutationIterator []) [] =
      LoopOutcome.running (List.replicate fuel [])) := by
  constructor
  · intro m
    induction m with
    | zero => exact Next_new_nil
    | succ m ih => rw [nthNext, Next_new_nil]; exact ih
  · have key : ∀ fuel sent, IteratePermutations fuel (NewPermutationIterator []) sent =
        LoopOutcome.running (sent ++ List.replicate fuel []) := by
      intro fuel
      induction fuel with
      | zero => intro sent; simp [IteratePermutations]
      | succ fuel ih =>
        intro sent
        rw [IteratePermutations, Next_new_nil]
        simp only [Bool.not_true, Bool.false_eq_true, if_false, Option.getD_some]
        rw [ih, List.append_assoc, List.replicate_succ]
        rfl
    intro fuel
    simpa using key fuel []

/-! ## `ShardLists`: when it returns and what it returns -/

theorem mapM_some_of_forall {α β : Type} (f : α → Option β) (g : α → β) (l : List α)
    (h : ∀ a ∈ l, f a = some (g a)) : l.mapM f = some (l.map g) := by
  induction l with
  | nil => rfl
  | cons a l ih =>
    rw [List.mapM_cons, h a (by simp), ih fun b hb => h b (by simp [hb])]
    rfl

theorem mapM_none_of_mem {α β : Type} (f : α → Option β) (l : List α) (a : α)
    (ha : a ∈ l) (hf : f a = none) : l.mapM f = none := by
  induction l with
  | nil => simp at ha
  | cons b l ih =>
    rw [List.mapM_cons]
    rcases List.mem_cons.mp ha with hb | hb
    · subst hb; rw [hf]; rfl
    · cases f b with
      | none => rfl
      | some v => rw [ih hb]; rfl

theorem shardRow_some (lists : List (List String)) (n s j : Nat) (hn : n < lists.length)
    (hj : j * s ≤ lists[n].length) :
    (List.range lists.length).mapM (fun i => shardCell lists n s lists[n].length j i) =
      some (lists.set n (shardSlice lists[n] s j)) := by
  rw [mapM_some_of_forall _ (fun i => if i = n then shardSlice lists[n] s j else lists.getD i [])]
  · congr 1
    apply List.ext_getElem
    · simp
    · intro i h1 h2
      have hi : i < lists.length := by simpa using h1
      by_cases hin : i = n
      · subst hin; simp
      · simp [hin, List.getElem_set, Ne.symm hin, List.getD_eq_getElem?_getD,
          List.getElem?_eq_getElem hi]
  · intro i hi
    have hi' : i < lists.length := List.mem_range.mp hi
    by_cases hin : i = n
    · subst hin
      simp only [shardCell, if_true, List.getElem?_eq_getElem hn, sliceExpr, shardSlice]
      have h1 : j * s ≤ if j * s + s > lists[i].length then lists[i].length else j * s + s := by
        split <;> omega
      have h2 : (if j * s + s > lists[i].length then lists[i].length else j * s + s)
          ≤ lists[i].length := by
        split <;> omega
      have h3 : (if j * s + s > lists[i].length then lists[i].length else j * s + s)
          = min (j * s + s) lists[i].length := by
        split <;> omega
      rw [if_pos ⟨h1, h2⟩, h3]
    · simp [shardCell, hin, List.getD_eq_getElem?_getD, List.getElem?_eq_getElem hi']

theorem shardRow_none (lists : List (List String)) (n s j : Nat) (hn : n < lists.length)
    (hj : lists[n].length < j * s) :
    (List.range lists.length).mapM (fun i => shardCell lists n s lists[n].length j i) = none := by
  apply mapM_none_of_mem _ _ n (List.mem_range.mpr hn)
  simp only [shardCell, if_true, List.getElem?_eq_getElem hn, sliceExpr]
  rw [if_neg]
  intro h
  have := h.1
  split at this <;> omega

/-- Past the guard `ShardLists` returns exactly when the start of the last
shard, `(numShards - 1) * ceil(L / numShards)`, is at most `L`; it then returns
`numShards` copies of the list set with dimension `n` replaced by the
sub-range of the shard. -/
theorem fillShards_eq (lists : List (List String)) (n k : Nat) (hn : n < lists.length) :
    fillShards lists n k =
      if (k - 1) * ceilDiv lists[n].length k ≤ lists[n].length then
        some ((List.range k).map fun j =>
          lists.set n (shardSlice lists[n] (ceilDiv lists[n].length k) j))
      else none := by
  have hget : lists.getD n [] = lists[n] := by
    simp [List.getD_eq_getElem?_getD, List.getElem?_eq_getElem hn]
  simp only [fillShards, hget]
  change (List.range k).mapM (fun j => (List.range lists.length).mapM fun i =>
      shardCell lists n (ceilDiv lists[n].length k) lists[n].length j i) = _
  by_cases h : (k - 1) * ceilDiv lists[n].length k ≤ lists[n].length
  · rw [if_pos h]
    apply mapM_some_of_forall
    intro j hj
    have hjk : j < k := List.mem_range.mp hj
    apply shardRow_some lists n _ j hn
    calc j * ceilDiv lists[n].length k ≤ (k - 1) * ceilDiv lists[n].length k :=
          Nat.mul_le_mul_right _ (by omega)
      _ ≤ lists[n].length := h
  · rw [if_neg h]
    have hk : 0 < k := by
      rcases Nat.eq_zero_or_pos k with h0 | h0
      · subst h0; simp at h
      · exact h0
    apply mapM_none_of_mem _ _ (k - 1) (List.mem_range.mpr (by omega))
    exact shardRow_none lists n _ (k - 1) hn (by omega)

theorem ShardLists_of_valid (lists : List (List String)) (n k : Int)
    (hn0 : 0 ≤ n) (hn : n < lists.length) (hk : 0 < k) :
    ShardLists lists n k = fillShards lists n.toNat k.toNat := by
  have h0 : lists.length ≠ 0 := by
    intro h; rw [h] at hn; simp at hn; omega
  rw [ShardLists, if_neg]
  intro h
  rcases h with h | h | h | h <;> omega

theorem le_mul_ceilDiv (L k : Nat) (hk : 0 < k) : L ≤ k * ceilDiv L k := by
  unfold ceilDiv
  have h1 := Nat.div_add_mod (L + k - 1) k
  have h2 := Nat.mod_lt (L + k - 1) hk
  omega

theorem take_append_shardSlice (l : List String) (s j : Nat) :
    l.take (j * s) ++ shardSlice l s j = l.take (j * s + s) := by
  unfold shardSlice
  have h1 : l.take (min (j * s + s) l.length) = l.take (j * s + s) := by
    rw [← List.take_take, List.take_length]
  rw [h1]
  have h2 : l.take (j * s) = (l.take (j * s + s)).take (j * s) := by
    rw [List.take_take, Nat.min_eq_left (Nat.le_add_right _ _)]
  rw [h2, List.take_append_drop]

theorem flatten_shardSlice (l : List String) (s k : Nat) :
    ((List.range k).map (shardSlice l s)).flatten = l.take (k * s) := by
  induction k with
  | zero => simp
  | succ k ih =>
    rw [List.range_succ, List.map_append, List.flatten_append, ih]
    simp only [List.map_cons, List.map_nil, List.flatten_cons, List.flatten_nil, List.append_nil]
    rw [take_append_shardSlice, Nat.succ_mul]

/-- Whenever `ShardLists` returns on inputs that pass its guard, it returns
`numShards` shards of `len(listSet)` dimensions each, every dimension other
than `n` is the original one, and the slices of dimension `n`, joined in shard
order, are the original list. -/
theorem ShardLists_returned (lists : List (List String)) (n k : Int)
    (hn0 : 0 ≤ n) (hn : n < lists.length) (hk : 0 < k)
    (shards : List (List (List String))) (h : ShardLists lists n k = some shards) :
    shards.length = k.toNat ∧
    (∀ shard ∈ shards, shard.length = lists.length ∧
      ∀ i, i ≠ n.toNat → shard[i]? = lists[i]?) ∧
    (shards.map fun shard => shard.getD n.toNat []).flatten = lists.getD n.toNat [] := by
  have hn' : n.toNat < lists.length := by omega
  have hk' : 0 < k.toNat := by omega
  rw [ShardLists_of_valid lists n k hn0 hn hk, fillShards_eq lists _ _ hn'] at h
  split at h
  · injection h with h
    subst h
    refine ⟨by simp, ?_, ?_⟩
    · intro shard hs
      obtain ⟨j, _, rfl⟩ := List.mem_map.mp hs
      refine ⟨by simp, ?_⟩
      intro i hi
      rw [List.getElem?_set_ne (Ne.symm hi)]
    · have hget : lists.getD n.toNat [] = lists[n.toNat] := by
        simp [List.getD_eq_getElem?_getD, List.getElem?_eq_getElem hn']
      rw [hget, List.map_map]
      have hfun : ((fun shard : List (List String) => shard.getD n.toNat []) ∘ fun j =>
          lists.set n.toNat (shardSlice lists[n.toNat] (ceilDiv lists[n.toNat].length k.toNat) j))
          = shardSlice lists[n.toNat] (ceilDiv lists[n.toNat].length k.toNat) := by
        funext j
        simp [List.getD_eq_getElem?_getD, List.getElem?_set_self, hn']
      rw [hfun, flatten_shardSlice]
      exact List.take_of_length_le (le_mul_ceilDiv _ _ hk')
  · cases h

/-! ## Shards whose slices are all non-empty: every index tuple exactly once -/

theorem getD_lt_of_forall₂ :
    ∀ (n : Nat) (ns t : List Nat), n < ns.length →
      List.Forall₂ (fun d r => d < r) t ns → t.getD n 0 < ns.getD n 0 := by
  intro n
  induction n with
  | zero =>
    intro ns t hn h
    cases h with
    | nil => simp at hn
    | cons hd _ => simpa using hd
  | succ n ih =>
    intro ns t hn h
    cases h with
    | nil => simp at hn
    | cons _ hds => simpa using ih _ _ (by simpa using hn) hds

theorem ceilDiv_pos (L k : Nat) (hk : 0 < k) (hL : 0 < L) : 0 < ceilDiv L k := by
  have h := le_mul_ceilDiv L k hk
  rcases Nat.eq_zero_or_pos (ceilDiv L k) with h0 | h0
  · rw [h0] at h; omega
  · exact h0

/-- The index tuples of the shards, carried to the coordinates of the original
list set, are the index tuples of the original list set, each once. -/
theorem shard_tuples_perm (ns : List Nat) (n k : Nat) (hn : n < ns.length) (hk : 0 < k)
    (hfull : (k - 1) * ceilDiv (ns.getD n 0) k < ns.getD n 0) :
    ((List.range k).map fun j =>
        ((List.range (ns.set n (min (j * ceilDiv (ns.getD n 0) k + ceilDiv (ns.getD n 0) k)
              (ns.getD n 0) - j * ceilDiv (ns.getD n 0) k)).prod).map
          (mixedRadix (ns.set n (min (j * ceilDiv (ns.getD n 0) k + ceilDiv (ns.getD n 0) k)
              (ns.getD n 0) - j * ceilDiv (ns.getD n 0) k)))).map
          (shiftDigit n (j * ceilDiv (ns.getD n 0) k))).flatten.Perm
      ((List.range ns.prod).map (mixedRadix ns)) := by
  generalize hL : ns.getD n 0 = L at hfull ⊢
  generalize hs : ceilDiv L k = s at hfull ⊢
  have hstart : ∀ j, j < k → j * s < L := by
    intro j hj
    have : j * s ≤ (k - 1) * s := Nat.mul_le_mul_right _ (by omega)
    omega
  have hLpos : 0 < L := by omega
  have hspos : 0 < s := by rw [← hs]; exact ceilDiv_pos L k hk hLpos
  have hcover : L ≤ k * s := by rw [← hs]; exact le_mul_ceilDiv L k hk
  have hmem : ∀ j, j < k → ∀ t,
      t ∈ ((List.range (ns.set n (min (j * s + s) L - j * s)).prod).map
          (mixedRadix (ns.set n (min (j * s + s) L - j * s)))).map (shiftDigit n (j * s)) →
      List.Forall₂ (fun d r => d < r) t ns ∧ j * s ≤ t.getD n 0 ∧ t.getD n 0 < j * s + s := by
    intro j hj t ht
    obtain ⟨t', ht', rfl⟩ := List.mem_map.mp ht
    rw [mem_tuples_iff] at ht'
    have hj' := hstart j hj
    obtain ⟨h1, h2, h3⟩ := shiftDigit_valid n ns t' (j * s) _ hn (by rw [hL]; omega) ht'
    exact ⟨h1, by omega, by omega⟩
  apply (List.perm_ext_iff_of_nodup ?_ (nodup_tuples ns)).mpr
  · intro t
    rw [mem_tuples_iff]
    constructor
    · intro ht
      obtain ⟨l, hl, htl⟩ := List.mem_flatten.mp ht
      obtain ⟨j, hj, rfl⟩ := List.mem_map.mp hl
      exact (hmem j (List.mem_range.mp hj) t htl).1
    · intro ht
      have hd : t.getD n 0 < L := by
        rw [← hL]; exact getD_lt_of_forall₂ n ns t hn ht
      have hdm := Nat.div_add_mod (t.getD n 0) s
      have hml := Nat.mod_lt (t.getD n 0) hspos
      have hcomm : s * (t.getD n 0 / s) = t.getD n 0 / s * s := Nat.mul_comm _ _
      have hjk : t.getD n 0 / s < k := by
        apply Nat.div_lt_of_lt_mul
        calc t.getD n 0 < L := hd
          _ ≤ k * s := hcover
          _ = s * k := Nat.mul_comm _ _
      obtain ⟨t', h1, h2⟩ := shiftDigit_surj n ns t (t.getD n 0 / s * s)
        (min (t.getD n 0 / s * s + s) L - t.getD n 0 / s * s) hn ht (by omega) (by omega)
      apply List.mem_flatten.mpr
      refine ⟨_, List.mem_map.mpr ⟨t.getD n 0 / s, List.mem_range.mpr hjk, rfl⟩, ?_⟩
      exact List.mem_map.mpr ⟨t', (mem_tuples_iff _ _).mpr h1, h2⟩
  · apply List.nodup_flatten.mpr
    constructor
    · intro l hl
      obtain ⟨j, _, rfl⟩ := List.mem_map.mp hl
      exact (nodup_tuples _).map (shiftDigit_injective n (j * s))
    · apply List.pairwise_map.mpr
      apply List.Pairwise.imp_of_mem _ (List.pairwise_lt_range k)
      intro j j' hj hj' hlt t h1 h2
      have a1 := hmem j (List.mem_range.mp hj) t h1
      have a2 := hmem j' (List.mem_range.mp hj') t h2
      have : (j + 1) * s ≤ j' * s := Nat.mul_le_mul_right _ hlt
      rw [Nat.succ_mul] at this
      omega

theorem dims_set (lists : List (List String)) (n : Nat) (x : List String) :
    dims (lists.set n x) = (dims lists).set n x.length := by
  simp [dims, List.map_set]

theorem shardSlice_length (l : List String) (s j : Nat) :
    (shardSlice l s j).length = min (j * s + s) l.length - j * s := by
  simp [shardSlice]

/-- Sharding without an empty shard: when every dimension is non-empty and the
last shard starts inside the designated list, `ShardLists` returns, the run
over every shard returns, the index tuples of the shards (in the coordinates
of the original list set) are those of the original list set, each exactly
once, and the permutations sent over all shards are those of the unsharded
run. -/
theorem shards_cover_exactly_once (lists : List (List String)) (n k : Nat)
    (hn : n < lists.length) (hk : 0 < k) (hne : ∀ l ∈ lists, l ≠ [])
    (hfull : (k - 1) * ceilDiv (lists.getD n []).length k < (lists.getD n []).length) :
    ∃ shards, ShardLists lists n k = some shards ∧ shards.length = k ∧
      (∀ shard ∈ shards,
        IteratePermutations (productSize shard + 1) (NewPermutationIterator shard) [] =
          LoopOutcome.returned ((indexTuples shard).map (selectAt shard))) ∧
      ((List.range k).map fun j =>
          (indexTuples (shards.getD j [])).map
            (shiftDigit n (j * ceilDiv (lists.getD n []).length k))).flatten.Perm
        (indexTuples lists) ∧
      (indexTuples lists).Nodup ∧
      (shards.map fun shard => (indexTuples shard).map (selectAt shard)).flatten.Perm
        ((indexTuples lists).map (selectAt lists)) := by
  have hget : lists.getD n [] = lists[n] := by
    simp [List.getD_eq_getElem?_getD, List.getElem?_eq_getElem hn]
  have hdget : (dims lists).getD n 0 = lists[n].length := by
    simp [dims, List.getD_eq_getElem?_getD, List.getElem?_eq_getElem hn]
  have hdlen : n < (dims lists).length := by simpa [dims] using hn
  rw [hget] at hfull ⊢
  generalize hs : ceilDiv lists[n].length k = s at hfull ⊢
  have hstart : ∀ j, j < k → j * s < lists[n].length := by
    intro j hj
    have : j * s ≤ (k - 1) * s := Nat.mul_le_mul_right _ (by omega)
    omega
  have hspos : 0 < s := by rw [← hs]; exact ceilDiv_pos _ k hk (by omega)
  have hshards : ShardLists lists n k =
      some ((List.range k).map fun j => lists.set n (shardSlice lists[n] s j)) := by
    rw [ShardLists_of_valid lists n k (by omega) (by exact_mod_cast hn) (by exact_mod_cast hk)]
    simp only [Int.toNat_ofNat]
    rw [fillShards_eq lists n k hn, hs, if_pos (Nat.le_of_lt hfull)]
  have hsel : ∀ j, j < k →
      (indexTuples (lists.set n (shardSlice lists[n] s j))).map
          (selectAt (lists.set n (shardSlice lists[n] s j))) =
        ((indexTuples (lists.set n (shardSlice lists[n] s j))).map
          (shiftDigit n (j * s))).map (selectAt lists) := by
    intro j hj
    rw [List.map_map]
    apply List.map_congr_left
    intro t' ht'
    rw [indexTuples, productSize, mem_tuples_iff, dims_set] at ht'
    have hj' := hstart j hj
    obtain ⟨_, _, h3⟩ := shiftDigit_valid n (dims lists) t' (j * s) _ hdlen
      (by rw [hdget, shardSlice_length]; omega) ht'
    have h := selectAt_set_slice n lists t' (j * s) (min (j * s + s) lists[n].length)
      (by rw [hget]; exact h3)
    rw [hget] at h
    exact h
  have hidx := shard_tuples_perm (dims lists) n k hdlen hk (by rw [hdget, hs]; exact hfull)
  rw [hdget, hs] at hidx
  have hidx' : ((List.range k).map fun j =>
      (indexTuples (lists.set n (shardSlice lists[n] s j))).map (shiftDigit n (j * s))).flatten.Perm
      (indexTuples lists) := by
    simpa only [indexTuples, productSize, dims_set, shardSlice_length] using hidx
  refine ⟨_, hshards, by simp, ?_, ?_, nodup_tuples _, ?_⟩
  · intro shard hshard
    obtain ⟨j, hj, rfl⟩ := List.mem_map.mp hshard
    have hj' := hstart j (List.mem_range.mp hj)
    apply IteratePermutations_returns
    · intro h
      have h2 := congrArg List.length h
      rw [List.length_set, List.length_nil] at h2
      omega
    · intro x hx
      rcases List.mem_or_eq_of_mem_set hx with hx | hx
      · exact hne x hx
      · subst hx
        apply List.ne_nil_of_length_pos
        rw [shardSlice_length]
        omega
  · refine (List.Perm.of_eq ?_).trans hidx'
    congr 1
    apply List.map_congr_left
    intro j hj
    have hj' : j < k := List.mem_range.mp hj
    simp [List.getD_eq_getElem?_getD, hj']
  · rw [List.map_map]
    have h1 : ((fun shard => (indexTuples shard).map (selectAt shard)) ∘ fun j =>
        lists.set n (shardSlice lists[n] s j)) = fun j =>
        (indexTuples (lists.set n (shardSlice lists[n] s j))).map
          (selectAt (lists.set n (shardSlice lists[n] s j))) := rfl
    rw [h1]
    have h2 : ((List.range k).map fun j =>
        (indexTuples (lists.set n (shardSlice lists[n] s j))).map
          (selectAt (lists.set n (shardSlice lists[n] s j)))) =
        ((List.range k).map fun j =>
          (indexTuples (lists.set n (shardSlice lists[n] s j))).map (shiftDigit n (j * s))).map
          (List.map (selectAt lists)) := by
      rw [List.map_map]
      apply List.map_congr_left
      intro j hj
      exact hsel j (List.mem_range.mp hj)
    rw [h2, ← List.map_flatten]
    exact hidx'.map _

/-- The sharding of the test, two shards of dimension 1 of
`[["a","b"],["1","2","3","4"]]`, has no empty shard. -/
theorem shards_cover_exactly_once_basic :
    ∃ shards, ShardLists [["a", "b"], ["1", "2", "3", "4"]] (1 : Nat) (2 : Nat) = some shards ∧
      shards.length = 2 ∧
      (∀ shard ∈ shards,
        IteratePermutations (productSize shard + 1) (NewPermutationIterator shard) [] =
          LoopOutcome.returned ((indexTuples shard).map (selectAt shard))) ∧
      ((List.range 2).map fun j =>
          (indexTuples (shards.getD j [])).map
            (shiftDigit 1 (j * ceilDiv
              (([["a", "b"], ["1", "2", "3", "4"]] : List (List String)).getD 1 []).length
              2))).flatten.Perm
        (indexTuples [["a", "b"], ["1", "2", "3", "4"]]) ∧
      (indexTuples [["a", "b"], ["1", "2", "3", "4"]]).Nodup ∧
      (shards.map fun shard => (indexTuples shard).map (selectAt shard)).flatten.Perm
        ((indexTuples [["a", "b"], ["1", "2", "3", "4"]]).map
          (selectAt [["a", "b"], ["1", "2", "3", "4"]])) :=
  shards_cover_exactly_once [["a", "b"], ["1", "2", "3", "4"]] 1 2 (by decide) (by decide)
    (by decide) (by decide)

/-- Past the guard, `ShardLists` panics exactly when the last shard would start
beyond the end of the designated list. -/
theorem ShardLists_none_iff (lists : List (List String)) (n k : Nat)
    (hn : n < lists.length) (hk : 0 < k) :
    ShardLists lists n k = none ↔
      (lists.getD n []).length < (k - 1) * ceilDiv (lists.getD n []).length k := by
  have hget : lists.getD n [] = lists[n] := by
    simp [List.getD_eq_getElem?_getD, List.getElem?_eq_getElem hn]
  rw [ShardLists_of_valid lists n k (by omega) (by exact_mod_cast hn) (by exact_mod_cast hk)]
  simp only [Int.toNat_ofNat]
  rw [fillShards_eq lists n k hn, hget]
  split
  · constructor
    · intro h; cases h
    · intro h; omega
  · constructor
    · intro _; omega
    · intro _; rfl

/-- With a non-empty designated list and at least two more shards than it has
entries, `ShardLists` panics. -/
theorem ShardLists_none_of_many_shards (lists : List (List String)) (n k : Nat)
    (hn : n < lists.length) (hL : 1 ≤ (lists.getD n []).length)
    (hk : (lists.getD n []).length + 2 ≤ k) :
    ShardLists lists n k = none := by
  rw [ShardLists_none_iff lists n k hn (by omega)]
  have hc : ceilDiv (lists.getD n []).length k = 1 := by
    unfold ceilDiv
    apply Nat.div_eq_of_lt_le <;> omega
  rw [hc]
  omega

/-! ## Claims on `ShardLists` -/

/-- C5: on the list set `[["a","b","c","d"]]` with dimension 0 split into 3
shards, `ShardLists` returns the slices `[a,b]`, `[c,d]` and `[]`; the iterator
over the third shard panics at its first `Next` instead of reporting
exhaustion, so the run over all shards does not finish. -/
theorem shards_iteration_panics_on_empty_shard :
    ShardLists [["a", "b", "c", "d"]] 0 3 = some [[["a", "b"]], [["c", "d"]], [[]]] ∧
    ([[["a", "b"]], [["c", "d"]], [[]]].map fun shard =>
        IteratePermutations 3 (NewPermutationIterator shard) []) =
      [LoopOutcome.returned [["a"], ["b"]], LoopOutcome.returned [["c"], ["d"]],
       LoopOutcome.panicked []] := by
  decide

/-- C6: on the list `["1","2","3","4","5"]` split into 4 shards the shard size
is 2, the last shard is the slice expression `[6:5]`, and `ShardLists` panics
instead of returning slices that concatenate to the list. -/
theorem shard_slices_panic_five_by_four :
    ceilDiv 5 4 = 2 ∧ sliceExpr ["1", "2", "3", "4", "5"] 6 5 = none ∧
    ShardLists [["1", "2", "3", "4", "5"]] 0 4 = none := by
  decide

/-- C7: on the one-element list `["a"]` split into 3 shards (more shards than
elements) the third shard is the slice expression `[2:1]` and `ShardLists`
panics instead of returning an empty trailing shard. -/
theorem shard_more_shards_than_elements_panics :
    sliceExpr ["a"] 2 1 = none ∧ ShardLists [["a"]] 0 3 = none := by
  decide

/-- C8: `ShardLists` returns the empty shard sequence, and does not panic,
when the list set is empty, `n` is negative or at least `len(listSet)`, or
`numOfShards` is not positive. -/
theorem shard_invalid_inputs_empty (lists : List (List String)) (n numOfShards : Int)
    (h : lists = [] ∨ n < 0 ∨ (lists.length : Int) ≤ n ∨ numOfShards ≤ 0) :
    ShardLists lists n numOfShards = some [] := by
  rw [ShardLists, if_pos]
  rcases h with h | h | h | h
  · left; simp [h]
  · right; left; exact h
  · right; right; left; exact h
  · right; right; right; exact h

/-- C8 at the three invalid inputs of the test: empty list set, `n = 2` of two
dimensions, and zero shards. -/
theorem shard_invalid_inputs_empty_witness :
    ShardLists [] 0 2 = some [] ∧
    ShardLists [["a", "b"], ["1", "2"]] 2 2 = some [] ∧
    ShardLists [["a", "b"], ["1", "2"]] 0 0 = some [] ∧
    ShardLists [["a", "b"], ["1", "2"]] (-1) 2 = some [] :=
  ⟨shard_invalid_inputs_empty [] 0 2 (Or.inl rfl),
   shard_invalid_inputs_empty [["a", "b"], ["1", "2"]] 2 2 (Or.inr (Or.inr (Or.inl (by decide)))),
   shard_invalid_inputs_empty [["a", "b"], ["1", "2"]] 0 0 (Or.inr (Or.inr (Or.inr (by decide)))),
   shard_invalid_inputs_empty [["a", "b"], ["1", "2"]] (-1) 2 (Or.inr (Or.inl (by decide)))⟩

/-- C9: on the list set `[["a","b"],["1","2","3"]]` with dimension 1 split into
5 shards, the fifth shard is the slice expression `[4:3]` and `ShardLists`
panics instead of returning 5 shards of 2 dimensions. -/
theorem shard_count_panics_three_by_five :
    ceilDiv 3 5 = 1 ∧ sliceExpr ["1", "2", "3"] 4 3 = none ∧
    ShardLists [["a", "b"], ["1", "2", "3"]] 1 5 = none := by
  decide

/-! ## `CalculateTotalPermutations` -/

theorem wrapInt64_modEq (x : Int) : wrapInt64 x ≡ x [ZMOD 2 ^ 64] := by
  unfold wrapInt64 Int.ModEq
  omega

theorem wrapInt64_congr {x y : Int} (h : x ≡ y [ZMOD 2 ^ 64]) : wrapInt64 x = wrapInt64 y := by
  unfold wrapInt64
  have h' : (x + 2 ^ 63) % 2 ^ 64 = (y + 2 ^ 63) % 2 ^ 64 := Int.ModEq.add_right _ h
  rw [h']

theorem wrapInt64_of_fits (x : Int) (h0 : 0 ≤ x) (h1 : x < 2 ^ 63) : wrapInt64 x = x := by
  unfold wrapInt64
  omega

theorem foldl_wrapInt64_modEq (first : List (List String)) (init : Int) :
    first.foldl (fun total list => wrapInt64 (total * (list.length : Int))) init
      ≡ init * ((dims first).prod : Nat) [ZMOD 2 ^ 64] := by
  induction first generalizing init with
  | nil => simp [dims, Int.ModEq.refl]
  | cons l ls ih =>
    rw [List.foldl_cons]
    refine (ih _).trans ?_
    have h := (wrapInt64_modEq (init * (l.length : Int))).mul_right (((dims ls).prod : Nat) : Int)
    refine h.trans ?_
    simp only [dims, List.map_cons, List.prod_cons]
    push_cast
    rw [Int.mul_assoc]

/-- The value `CalculateTotalPermutations` returns on a shard sequence whose
first shard has a dimension: the exact product, reduced to the `int` range. -/
theorem CalculateTotalPermutations_cons (first : List (List String))
    (rest : List (List (List String))) (hdim : 1 ≤ first.length) :
    CalculateTotalPermutations (first :: rest) =
      wrapInt64 (((first :: rest).length : Int) * (productSize first : Int)) := by
  have h0 : first.length ≠ 0 := by omega
  simp only [CalculateTotalPermutations, h0, if_false]
  apply wrapInt64_congr
  have h := (foldl_wrapInt64_modEq first 1).mul_right (((first :: rest).length : Nat) : Int)
  refine h.trans ?_
  rw [Int.one_mul, Int.mul_comm]
  rfl

/-- C10, as the code has it: for a non-empty shard sequence whose first shard
has at least one dimension, when `len(shards)` times the product of the
lengths of the dimensions of `shards[0]` is below `2^63`,
`CalculateTotalPermutations` returns exactly that number; for the empty shard
sequence it returns 0. -/
theorem total_permutations_formula (first : List (List String))
    (rest : List (List (List String))) (hdim : 1 ≤ first.length)
    (hfit : ((first :: rest).length : Int) * (productSize first : Int) < 2 ^ 63) :
    CalculateTotalPermutations (first :: rest) =
      ((first :: rest).length : Int) * (productSize first : Int) ∧
    CalculateTotalPermutations [] = 0 := by
  refine ⟨?_, rfl⟩
  rw [CalculateTotalPermutations_cons first rest hdim]
  exact wrapInt64_of_fits _ (by positivity) hfit

/-- C10 on the shard sequences of the test: 8 for two shards of 2 x 2, and 0
for one shard whose only dimension is empty. -/
theorem total_permutations_formula_witness :
    (CalculateTotalPermutations [[["a", "b"], ["1", "2"]], [["a", "b"], ["3", "4"]]] = 8 ∧
      CalculateTotalPermutations [] = 0) ∧
    (CalculateTotalPermutations [[[]]] = 0 ∧ CalculateTotalPermutations [] = 0) :=
  ⟨total_permutations_formula [["a", "b"], ["1", "2"]] [[["a", "b"], ["3", "4"]]]
      (by decide) (by decide),
   total_permutations_formula [[]] [] (by decide) (by decide)⟩

theorem total_permutations_three_big (a b c : List String) (ha : a.length = 2097152)
    (hb : b.length = 2097152) (hc : c.length = 2097152) :
    CalculateTotalPermutations [[a, b, c]] = -9223372036854775808 ∧
    (([[a, b, c]] : List (List (List String))).length : Int) * (productSize [a, b, c] : Int)
      = 9223372036854775808 := by
  have hp : productSize [a, b, c] = 9223372036854775808 := by
    simp [productSize, dims, ha, hb, hc]
  refine ⟨?_, ?_⟩
  · rw [CalculateTotalPermutations_cons _ _ (by simp), hp]
    simp [wrapInt64]
  · rw [hp]; simp

/-- C10 as stated fails on one shard of three dimensions of `2^21` entries
each: the product of the lengths is `2^63`, which is not an `int`, and the
function returns `-2^63`. -/
theorem total_permutations_overflow :
    CalculateTotalPermutations
        [[List.replicate 2097152 "a", List.replicate 2097152 "a", List.replicate 2097152 "a"]]
      = -9223372036854775808 ∧
    (([[List.replicate 2097152 "a", List.replicate 2097152 "a",
        List.replicate 2097152 "a"]] : List (List (List String))).length : Int) *
      (productSize
        [List.replicate 2097152 "a", List.replicate 2097152 "a", List.replicate 2097152 "a"] : Int)
      = 9223372036854775808 ∧
    CalculateTotalPermutations
        [[List.replicate 2097152 "a", List.replicate 2097152 "a", List.replicate 2097152 "a"]]
      ≠ (([[List.replicate 2097152 "a", List.replicate 2097152 "a",
        List.replicate 2097152 "a"]] : List (List (List String))).length : Int) *
      (productSize
        [List.replicate 2097152 "a", List.replicate 2097152 "a", List.replicate 2097152 "a"] : Int) := by
  have h := total_permutations_three_big (List.replicate 2097152 "a")
    (List.replicate 2097152 "a") (List.replicate 2097152 "a")
    (List.length_replicate _ _) (List.length_replicate _ _) (List.length_replicate _ _)
  refine ⟨h.1, h.2, ?_⟩
  rw [h.1, h.2]
  decide

end Permute

namespace Curl

/-! ## `ConstructPayload` -/

theorem lookup_value (permutation staticValues : List String) (i : Nat) :
    (if i < permutation.length then permutation[i]? else staticValues[i - permutation.length]?)
      = (permutation ++ staticValues)[i]? := by
  by_cases hi : i < permutation.length
  · rw [if_pos hi, List.getElem?_append_left hi]
  · rw [if_neg hi, List.getElem?_append_right (by omega)]

theorem payloadLoop_step (escape : String → String) (permutation staticValues : List String)
    (field : String) (fields : List String) (i : Nat) (payload value : String)
    (hv : (permutation ++ staticValues)[i]? = some value) :
    payloadLoop escape permutation staticValues (field :: fields) i payload =
      payloadLoop escape permutation staticValues fields (i + 1)
        ((if i > 0 then payload ++ "&" else payload) ++ (escape field ++ "=" ++ escape value)) := by
  rw [← lookup_value] at hv
  rw [payloadLoop]
  by_cases hi : i < permutation.length
  · rw [if_pos hi] at hv
    simp only [hi, if_true, hv]
  · rw [if_neg hi] at hv
    simp only [hi, if_false, hv]

theorem payloadLoop_later (escape : String → String) (permutation staticValues : List String) :
    ∀ (fields : List String) (i : Nat) (payload : String), 0 < i →
      i + fields.length ≤ (permutation ++ staticValues).length →
      payloadLoop escape permutation staticValues fields i payload =
        some (String.intercalate.go payload "&"
          (List.zipWith (fun field value => escape field ++ "=" ++ escape value) fields
            ((permutation ++ staticValues).drop i))) := by
  intro fields
  induction fields with
  | nil =>
    intro i payload _ _
    simp [payloadLoop, String.intercalate.go]
  | cons field fields ih =>
    intro i payload hi hlen
    have hlt : i < (permutation ++ staticValues).length := by
      simp only [List.length_cons] at hlen; omega
    have hdrop : (permutation ++ staticValues).drop i =
        (permutation ++ staticValues)[i] :: (permutation ++ staticValues).drop (i + 1) :=
      List.drop_eq_getElem_cons hlt
    rw [payloadLoop_step escape permutation staticValues field fields i payload _
      (List.getElem?_eq_getElem hlt)]
    rw [ih (i + 1) _ (by omega) (by simp only [List.length_cons] at hlen; omega)]
    rw [hdrop, List.zipWith_cons_cons, String.intercalate.go, if_pos hi]

/-- With matching lengths the loop of `ConstructPayload` never indexes out of
range and builds the `&`-join of the escaped pairs. -/
theorem payloadLoop_eq_formBody (escape : String → String)
    (fields permutation staticValues : List String)
    (h : fields.length = permutation.length + staticValues.length) :
    payloadLoop escape permutation staticValues fields 0 "" =
      some (formBody escape fields permutation staticValues) := by
  cases fields with
  | nil => simp [payloadLoop, formBody, String.intercalate]
  | cons field fields =>
    have hlen : (permutation ++ staticValues).length = fields.length + 1 := by
      rw [List.length_append]; simpa using h.symm
    have hlt : 0 < (permutation ++ staticValues).length := by omega
    have hdrop : permutation ++ staticValues =
        (permutation ++ staticValues)[0] :: (permutation ++ staticValues).drop 1 := by
      have := List.drop_eq_getElem_cons hlt
      simpa using this
    rw [payloadLoop_step escape permutation staticValues field fields 0 "" _
      (List.getElem?_eq_getElem hlt)]
    rw [payloadLoop_later escape permutation staticValues fields 1 _ (by omega) (by omega)]
    simp only [gt_iff_lt, Nat.lt_irrefl, if_false, String.empty_append, Nat.zero_add]
    rw [formBody]
    conv_rhs => rw [hdrop, List.zipWith_cons_cons, String.intercalate]

/-- C11: `ConstructPayload` returns an error exactly when `len(Fields)` differs
from `len(permutation) + len(StaticValues)`; when the lengths match it returns
a body and no error (and never indexes out of range). -/
theorem construct_payload_error_iff (escape : String → String) (c : CurlConfig)
    (permutation : List String) :
    ((∃ err, ConstructPayload escape c permutation = some (Except.error err)) ↔
      c.Fields.length ≠ permutation.length + c.StaticValues.length) ∧
    (c.Fields.length = permutation.length + c.StaticValues.length →
      ∃ body, ConstructPayload escape c permutation = some (Except.ok body)) := by
  by_cases h : c.Fields.length = permutation.length + c.StaticValues.length
  · have hok : ConstructPayload escape c permutation =
        some (Except.ok (formBody escape c.Fields permutation c.StaticValues)) := by
      simp [ConstructPayload, h, payloadLoop_eq_formBody escape _ _ _ h]
    refine ⟨⟨?_, fun hne => absurd h hne⟩, fun _ => ⟨_, hok⟩⟩
    rintro ⟨err, herr⟩
    rw [hok] at herr
    cases herr
  · refine ⟨⟨fun _ => h, fun _ =>
      ⟨"error: length of permutation and values are not equal", ?_⟩⟩, fun hm => absurd hm h⟩
    simp only [ConstructPayload, ne_eq, h, not_false_eq_true, if_true]

/-- C11 on the two cases of the test: two fields against two permutation
values and one static value give the error, three fields give a body. -/
theorem construct_payload_error_iff_witness :
    (∃ err, ConstructPayload QueryEscape
      { ValidateType := "", SizeDefault := 0, CodeDefault := 0, URL := "",
        Fields := ["field1", "field2"], StaticValues := ["static1"] }
      ["value1", "value2"] = some (Except.error err)) ∧
    (∃ body, ConstructPayload QueryEscape
      { ValidateType := "", SizeDefault := 0, CodeDefault := 0, URL := "",
        Fields := ["field1", "field2", "field3"], StaticValues := ["static1"] }
      ["value1", "value2"] = some (Except.ok body)) :=
  ⟨(construct_payload_error_iff QueryEscape
      { ValidateType := "", SizeDefault := 0, CodeDefault := 0, URL := "",
        Fields := ["field1", "field2"], StaticValues := ["static1"] }
      ["value1", "value2"]).1.mpr (by decide),
   (construct_payload_error_iff QueryEscape
      { ValidateType := "", SizeDefault := 0, CodeDefault := 0, URL := "",
        Fields := ["field1", "field2", "field3"], StaticValues := ["static1"] }
      ["value1", "value2"]).2 (by decide)⟩

/-- C12: when `len(fields) = len(permutation) + len(staticValues)`, the body
built by `ConstructPayload` is the `&`-join, in field order, of
`escape(fields[i]) + "=" + escape(v[i])`, where `v` is the permutation followed
by the static values. -/
theorem construct_payload_body (escape : String → String) (c : CurlConfig)
    (permutation : List String)
    (h : c.Fields.length = permutation.length + c.StaticValues.length) :
    ConstructPayload escape c permutation =
      some (Except.ok (formBody escape c.Fields permutation c.StaticValues)) := by
  simp [ConstructPayload, h, payloadLoop_eq_formBody escape _ _ _ h]

/-- C12 on fields `[f1,f2,f3]`, permutation `[v1,v2]`, static values `[s1]`:
the body is `f1=v1&f2=v2&f3=s1`. -/
theorem construct_payload_body_witness :
    ConstructPayload QueryEscape
      { ValidateType := "", SizeDefault := 0, CodeDefault := 0, URL := "",
        Fields := ["f1", "f2", "f3"], StaticValues := ["s1"] } ["v1", "v2"]
      = some (Except.ok "f1=v1&f2=v2&f3=s1") :=
  construct_payload_body QueryEscape
    { ValidateType := "", SizeDefault := 0, CodeDefault := 0, URL := "",
      Fields := ["f1", "f2", "f3"], StaticValues := ["s1"] } ["v1", "v2"] (by decide)

/-! ## `ValidateResponse` -/

/-- C13: on every response `ValidateResponse` returns, and it returns false
exactly when the mode is `size` and the content length differs from
`SizeDefault`, or the mode is `code` and the status code differs from
`CodeDefault`; for every other mode string it returns true. -/
theorem validate_response_anomalous_iff (c : CurlConfig) (r : Response) :
    ∃ valid texts, ValidateResponse c (some r) = some (valid, texts) ∧
      (valid = false ↔
        (c.ValidateType = "size" ∧ r.ContentLength ≠ c.SizeDefault) ∨
        (c.ValidateType = "code" ∧ r.StatusCode ≠ c.CodeDefault)) ∧
      (c.ValidateType ≠ "size" → c.ValidateType ≠ "code" → valid = true) := by
  unfold ValidateResponse
  by_cases hs : c.ValidateType = "size"
  · have hne : ¬ ("size" = "code") := by decide
    refine ⟨_, _, by rw [if_pos hs], ?_, fun h => absurd hs h⟩
    simp [hs, hne]
  · by_cases hc : c.ValidateType = "code"
    · refine ⟨_, _, by rw [if_neg hs, if_pos hc], ?_, fun _ h => absurd hc h⟩
      simp [hs, hc]
    · refine ⟨_, _, by rw [if_neg hs, if_neg hc], ?_, fun _ _ => rfl⟩
      simp [hs, hc]

/-- C13 on the five cases of the test. -/
theorem validate_response_cases :
    (ValidateResponse ⟨"size", 100, 0, "", [], []⟩
      (some ⟨100, 0⟩)).map Prod.fst = some true ∧
    (ValidateResponse ⟨"size", 100, 0, "", [], []⟩
      (some ⟨200, 0⟩)).map Prod.fst = some false ∧
    (ValidateResponse ⟨"code", 0, 404, "", [], []⟩
      (some ⟨0, 404⟩)).map Prod.fst = some true ∧
    (ValidateResponse ⟨"code", 0, 404, "", [], []⟩
      (some ⟨0, 200⟩)).map Prod.fst = some false ∧
    (ValidateResponse ⟨"invalid", 0, 0, "", [], []⟩
      (some ⟨0, 0⟩)).map Prod.fst = some true := by
  decide

end Curl

namespace Config

/-! ## `YamlConfig.Validate` -/

/-- C14, as the code has it: `Validate` succeeds exactly when the endpoint is
non-empty and, for a configuration of type `payload`, `len(Fields)` equals
`len(Wordlists) + len(StaticValues)`; an empty endpoint, or a `payload`
configuration with other lengths, is rejected with an error. -/
theorem validate_succeeds_iff (c : YamlConfig) :
    (Validate c = none ↔
      c.Endpoint ≠ "" ∧
        (c.Type_ = "payload" → c.Fields.length = c.Wordlists.length + c.StaticValues.length)) ∧
    (c.Endpoint = "" → ∃ err, Validate c = some err) ∧
    (c.Type_ = "payload" → c.Fields.length ≠ c.Wordlists.length + c.StaticValues.length →
      ∃ err, Validate c = some err) := by
  unfold Validate
  by_cases he : c.Endpoint = ""
  · simp [he]
  · by_cases ht : c.Type_ = "payload"
    · by_cases hl : c.Fields.length = c.Wordlists.length + c.StaticValues.length
      · simp [he, ht, hl]
      · simp [he, ht, hl]
    · simp [he, ht]

/-- C14 on the three configurations of the test: the valid one passes, the one
without endpoint and the `payload` one with two fields for one wordlist are
rejected. -/
theorem validate_succeeds_iff_witness :
    Validate ⟨"payload", "http://example.com", ["field1", "field2"], ["wordlist1.txt"],
      ["static1"]⟩ = none ∧
    (∃ err, Validate ⟨"payload", "", ["field1"], ["wordlist1.txt"], []⟩ = some err) ∧
    (∃ err, Validate ⟨"payload", "http://example.com", ["field1", "field2"], ["wordlist1.txt"],
      []⟩ = some err) :=
  ⟨(validate_succeeds_iff ⟨"payload", "http://example.com", ["field1", "field2"],
      ["wordlist1.txt"], ["static1"]⟩).1.mpr ⟨by decide, fun _ => by decide⟩,
   (validate_succeeds_iff ⟨"payload", "", ["field1"], ["wordlist1.txt"], []⟩).2.1 (by decide),
   (validate_succeeds_iff ⟨"payload", "http://example.com", ["field1", "field2"],
      ["wordlist1.txt"], []⟩).2.2 (by decide) (by decide)⟩

/-- C14 as stated fails on a configuration whose type is not `payload`: with a
non-empty endpoint, two fields, one wordlist and no static value, `Validate`
returns no error. -/
theorem validate_accepts_mismatch_when_not_payload :
    Validate ⟨"", "http://example.com", ["field1", "field2"], ["wordlist1.txt"], []⟩ = none ∧
    (["field1", "field2"] : List String).length ≠
      (["wordlist1.txt"] : List String).length + ([] : List String).length := by
  decide

end Config

namespace Main

/-! ## `ProcessResults` -/

/-- A response-bearing result that `ValidateResponse` judges non-anomalous
leaves no trace but the text `ValidateResponse` prints: its body is not
closed. -/
theorem ProcessResults_non_anomalous (c : Curl.CurlConfig) (payload : List String)
    (res : Curl.Response) (texts : List String) (results : List Worker.CurlResult)
    (events : List Event) (h : Curl.ValidateResponse c (some res) = some (true, texts)) :
    ProcessResults c (⟨payload, some res, none⟩ :: results) events =
      ProcessResults c results (events ++ texts.map Event.printed) := by
  rw [ProcessResults]
  simp [h]

/-- A response-bearing result that `ValidateResponse` judges anomalous is
printed with its payload and its body is closed. -/
theorem ProcessResults_anomalous (c : Curl.CurlConfig) (payload : List String)
    (res : Curl.Response) (texts : List String) (results : List Worker.CurlResult)
    (events : List Event) (h : Curl.ValidateResponse c (some res) = some (false, texts)) :
    ProcessResults c (⟨payload, some res, none⟩ :: results) events =
      ProcessResults c results (events ++ texts.map Event.printed ++
        [Event.printedAnomaly payload, Event.closedBody payload res]) := by
  rw [ProcessResults]
  simp [h]

/-- C15: with mode `code` and `CodeDefault = 404`, the result for `[word1]`
with status 404 is judged non-anomalous and `ProcessResults` does nothing with
it: its body is not closed.  The result for `[word2]` with status 200 is
anomalous: it is printed with its permutation and its body is closed. -/
theorem process_results_leaves_non_anomalous_body_open :
    Curl.ValidateResponse ⟨"code", 0, 404, "", [], []⟩ (some ⟨0, 404⟩) = some (true, []) ∧
    ProcessResults ⟨"code", 0, 404, "", [], []⟩ [⟨["word1"], some ⟨0, 404⟩, none⟩] [] = some [] ∧
    ProcessResults ⟨"code", 0, 404, "", [], []⟩
        [⟨["word1"], some ⟨0, 404⟩, none⟩, ⟨["word2"], some ⟨0, 200⟩, none⟩] [] =
      some [Event.printedAnomaly ["word2"], Event.closedBody ["word2"] ⟨0, 200⟩] := by
  decide

end Main

namespace Worker

/-! ## `WorkerPool.worker` -/

theorem worker_from (escape : String → String) (config : Curl.CurlConfig)
    (send : Nat → String → Except String Curl.Response) :
    ∀ (perms : List (List String)) (trace : WorkerTrace),
      ∃ more, worker escape config send perms trace =
          some ⟨trace.results ++ more,
            trace.requests ++ (perms.filter fun perm =>
                decide (config.Fields.length = perm.length + config.StaticValues.length)).map
              (fun perm => Curl.formBody escape config.Fields perm config.StaticValues),
            trace.progress + (perms.filter fun perm =>
                decide (config.Fields.length = perm.length + config.StaticValues.length)).length⟩ ∧
        more.map (fun result => result.Payload) = perms ∧
        ∀ (i : Nat) (perm : List String) (err : String), perms[i]? = some perm →
          Curl.ConstructPayload escape config perm = some (Except.error err) →
          more[i]? = some (⟨perm, none, some err⟩ : CurlResult) := by
  intro perms
  induction perms with
  | nil =>
    intro trace
    exact ⟨[], by simp [worker], rfl, by simp⟩
  | cons perm perms ih =>
    intro trace
    by_cases hok : config.Fields.length = perm.length + config.StaticValues.length
    · have hcp := Curl.construct_payload_body escape config perm hok
      cases hsend : send trace.requests.length
          (Curl.formBody escape config.Fields perm config.StaticValues) with
      | ok res =>
        obtain ⟨more, h1, h2, h3⟩ := ih
          ⟨trace.results ++ [⟨perm, some res, none⟩],
           trace.requests ++ [Curl.formBody escape config.Fields perm config.StaticValues],
           trace.progress + 1⟩
        refine ⟨⟨perm, some res, none⟩ :: more, ?_, by simp [h2], ?_⟩
        · rw [worker, hcp]
          simp only [hsend]
          rw [h1]
          simp [hok, Nat.add_assoc, Nat.add_comm 1]
        · intro i p err hp herr
          cases i with
          | zero =>
            simp only [List.getElem?_cons_zero, Option.some.injEq] at hp
            subst hp
            rw [hcp] at herr
            cases herr
          | succ i => simpa using h3 i p err (by simpa using hp) herr
      | error e =>
        obtain ⟨more, h1, h2, h3⟩ := ih
          ⟨trace.results ++ [⟨perm, none, some e⟩],
           trace.requests ++ [Curl.formBody escape config.Fields perm config.StaticValues],
           trace.progress + 1⟩
        refine ⟨⟨perm, none, some e⟩ :: more, ?_, by simp [h2], ?_⟩
        · rw [worker, hcp]
          simp only [hsend]
          rw [h1]
          simp [hok, Nat.add_assoc, Nat.add_comm 1]
        · intro i p err hp herr
          cases i with
          | zero =>
            simp only [List.getElem?_cons_zero, Option.some.injEq] at hp
            subst hp
            rw [hcp] at herr
            cases herr
          | succ i => simpa using h3 i p err (by simpa using hp) herr
    · have hcp : Curl.ConstructPayload escape config perm =
          some (Except.error "error: length of permutation and values are not equal") := by
        simp only [Curl.ConstructPayload, ne_eq, hok, not_false_eq_true, if_true]
      obtain ⟨more, h1, h2, h3⟩ := ih
        { trace with results := trace.results ++
            [⟨perm, none, some "error: length of permutation and values are not equal"⟩] }
      refine ⟨⟨perm, none, some "error: length of permutation and values are not equal"⟩ :: more,
        ?_, by simp [h2], ?_⟩
      · rw [worker, hcp]
        simp only
        rw [h1]
        simp [hok]
      · intro i p err hp herr
        cases i with
        | zero =>
          simp only [List.getElem?_cons_zero, Option.some.injEq] at hp
          subst hp
          rw [hcp] at herr
          simp only [Option.some.injEq, Except.error.injEq] at herr
          subst herr
          simp
        | succ i => simpa using h3 i p err (by simpa using hp) herr

/-- C16: over any sequence of dequeued permutations a worker runs to the end
and emits exactly one result per permutation, in order, each carrying its
permutation as `Payload`.  A permutation for which `ConstructPayload` fails
gets the result with that error and a nil response; the bodies handed to
`SendCurl` are those of the other permutations only, and the progress bar has
advanced once for each of those. -/
theorem worker_one_result_per_permutation (escape : String → String)
    (config : Curl.CurlConfig) (send : Nat → String → Except String Curl.Response)
    (perms : List (List String)) :
    ∃ trace, worker escape config send perms ⟨[], [], 0⟩ = some trace ∧
      trace.results.length = perms.length ∧
      trace.results.map (fun result => result.Payload) = perms ∧
      (∀ (i : Nat) (perm : List String) (err : String), perms[i]? = some perm →
        Curl.ConstructPayload escape config perm = some (Except.error err) →
        trace.results[i]? = some (⟨perm, none, some err⟩ : CurlResult)) ∧
      trace.requests = (perms.filter fun perm =>
          decide (config.Fields.length = perm.length + config.StaticValues.length)).map
        (fun perm => Curl.formBody escape config.Fields perm config.StaticValues) ∧
      trace.progress = (perms.filter fun perm =>
          decide (config.Fields.length = perm.length + config.StaticValues.length)).length := by
  obtain ⟨more, h1, h2, h3⟩ := worker_from escape config send perms ⟨[], [], 0⟩
  refine ⟨_, h1, ?_, ?_, ?_, ?_, ?_⟩
  · have := congrArg List.length h2
    simpa using this
  · simpa using h2
  · intro i perm err hp herr
    simpa using h3 i perm err hp herr
  · simp
  · simp

/-- C16 on the two permutations of the test, with a server that answers 200:
`[test1]` is sent and gets its response, `[test2, extraValue]` has one value
too many, gets the error result and is not sent. -/
theorem worker_test_run :
    worker Curl.QueryEscape ⟨"code", 100, 404, "http://example.com", ["field1", "field2"],
        ["staticValue"]⟩ (fun _ _ => Except.ok ⟨0, 200⟩)
        [["test1"], ["test2", "extraValue"]] ⟨[], [], 0⟩ =
      some ⟨[⟨["test1"], some ⟨0, 200⟩, none⟩,
          ⟨["test2", "extraValue"], none,
            some "error: length of permutation and values are not equal"⟩],
        ["field1=test1&field2=staticValue"], 1⟩ := by
  rfl

end Worker

namespace Permute

/-! ## Distinct permutations -/

theorem selectAt_injOn (lists : List (List String)) (hnodup : ∀ l ∈ lists, l.Nodup) :
    ∀ (t1 t2 : List Nat), List.Forall₂ (fun d n => d < n) t1 (dims lists) →
      List.Forall₂ (fun d n => d < n) t2 (dims lists) →
      selectAt lists t1 = selectAt lists t2 → t1 = t2 := by
  induction lists with
  | nil =>
    intro t1 t2 h1 h2 _
    simp only [dims, List.map_nil, List.forall₂_nil_right_iff] at h1 h2
    rw [h1, h2]
  | cons l ls ih =>
    intro t1 t2 h1 h2 hsel
    simp only [dims, List.map_cons] at h1 h2
    obtain ⟨d1, ds1, hd1, hds1, rfl⟩ := List.forall₂_cons_right_iff.mp h1
    obtain ⟨d2, ds2, hd2, hds2, rfl⟩ := List.forall₂_cons_right_iff.mp h2
    simp only [selectAt, List.cons.injEq] at hsel
    have hl : l.Nodup := hnodup l (by simp)
    have hget : l[d1] = l[d2] := by
      have e1 : l.getD d1 "" = l[d1] := by
        simp [List.getD_eq_getElem?_getD, List.getElem?_eq_getElem hd1]
      have e2 : l.getD d2 "" = l[d2] := by
        simp [List.getD_eq_getElem?_getD, List.getElem?_eq_getElem hd2]
      rw [← e1, ← e2]
      exact hsel.1
    have hd : d1 = d2 := hl.getElem_inj_iff.mp hget
    rw [hd, ih (fun k hk => hnodup k (by simp [hk])) ds1 ds2 hds1 hds2 hsel.2]

/-- C17, as the code has it: for a list set with at least one dimension, all
dimensions non-empty and no wordlist with a repeated entry, the run of the
iterator to exhaustion returns, and the permutations it produced, one per
index tuple, are pairwise distinct. -/
theorem permutations_distinct (lists : List (List String)) (hk : 1 ≤ lists.length)
    (hne : ∀ l ∈ lists, l ≠ []) (hnodup : ∀ l ∈ lists, l.Nodup) :
    ∃ sent, IteratePermutations (productSize lists + 1) (NewPermutationIterator lists) [] =
        LoopOutcome.returned sent ∧
      sent.length = productSize lists ∧ sent.Nodup := by
  have hk' : lists ≠ [] := by
    intro h; simp [h] at hk
  refine ⟨_, IteratePermutations_returns lists hk' hne, by simp [indexTuples], ?_⟩
  apply List.Nodup.map_on _ (nodup_tuples (dims lists))
  intro t1 ht1 t2 ht2 hsel
  exact selectAt_injOn lists hnodup t1 t2 ((mem_tuples_iff _ _).mp ht1)
    ((mem_tuples_iff _ _).mp ht2) hsel

/-- C17 on the list set of the test: its four permutations are distinct. -/
theorem permutations_distinct_witness :
    ∃ sent, IteratePermutations (productSize [["a", "b"], ["1", "2"]] + 1)
        (NewPermutationIterator [["a", "b"], ["1", "2"]]) [] = LoopOutcome.returned sent ∧
      sent.length = productSize [["a", "b"], ["1", "2"]] ∧ sent.Nodup :=
  permutations_distinct [["a", "b"], ["1", "2"]] (by decide) (by decide) (by decide)

/-- C17 as stated fails on a wordlist with a repeated entry: over `[["a","a"]]`
the iterator produces `[a]` twice before it reports exhaustion. -/
theorem permutations_repeat_on_repeated_entry :
    IteratePermutations 3 (NewPermutationIterator [["a", "a"]]) [] =
      LoopOutcome.returned [["a"], ["a"]] ∧
    ¬ ([["a"], ["a"]] : List (List String)).Nodup := by
  decide

/-! ## The progress total against the real number of permutations -/

theorem prod_set_eq (n : Nat) : ∀ (ns : List Nat) (a : Nat), n < ns.length →
    (ns.set n a).prod = (ns.set n 1).prod * a := by
  induction n with
  | zero =>
    intro ns a hn
    cases ns with
    | nil => simp at hn
    | cons b ns => simp [List.set_cons_zero, Nat.mul_comm]
  | succ n ih =>
    intro ns a hn
    cases ns with
    | nil => simp at hn
    | cons b ns =>
      rw [List.set_cons_succ, List.set_cons_succ, List.prod_cons, List.prod_cons,
        ih ns a (by simpa using hn), Nat.mul_assoc]

theorem set_getD_self (n : Nat) : ∀ (ns : List Nat), ns.set n (ns.getD n 0) = ns := by
  induction n with
  | zero => intro ns; cases ns <;> simp
  | succ n ih =>
    intro ns
    cases ns with
    | nil => simp
    | cons b ns => simpa using ih ns

theorem set_getElem_eq_self (lists : List (List String)) (n : Nat) (hn : n < lists.length) :
    lists.set n lists[n] = lists := by
  apply List.ext_getElem
  · simp
  · intro i h1 h2
    by_cases hin : n = i
    · subst hin; simp
    · simp [List.getElem_set, hin]

theorem ceilDiv_le (L k : Nat) (hk : 0 < k) : ceilDiv L k ≤ L := by
  unfold ceilDiv
  rcases Nat.eq_zero_or_pos L with h0 | hL
  · subst h0
    rw [Nat.zero_add, Nat.div_eq_of_lt (by omega)]
  · apply Nat.div_le_of_le_mul
    have h : 1 * (L - 1) ≤ k * (L - 1) := Nat.mul_le_mul_right _ hk
    have e : k * L = k * (L - 1) + k := by
      conv_lhs => rw [show L = (L - 1) + 1 by omega]
      rw [Nat.mul_succ]
    omega

/-- One shard is the list set itself. -/
theorem ShardLists_one_shard (lists : List (List String)) (n : Nat) (hn : n < lists.length) :
    ShardLists lists n 1 = some [lists] := by
  rw [ShardLists_of_valid lists n 1 (by omega) (by exact_mod_cast hn) (by omega)]
  have e1 : (1 : Int).toNat = 1 := rfl
  simp only [Int.toNat_ofNat, e1]
  rw [fillShards_eq lists n 1 hn, if_pos (by simp)]
  have hs : shardSlice lists[n] (ceilDiv lists[n].length 1) 0 = lists[n] := by
    simp [shardSlice, ceilDiv]
  rw [show List.range 1 = [0] from rfl]
  simp [hs, set_getElem_eq_self lists n hn]

/-- The total computed over the shards that `ShardLists` returns is the product
`numShards * ceil(L / numShards) * (product of the other lengths)`, reduced to
the `int` range; the number of permutations is `L * (product of the other
lengths)`. -/
theorem total_of_shards (lists : List (List String)) (n k : Nat) (hn : n < lists.length)
    (hk : 0 < k) (shards : List (List (List String))) (h : ShardLists lists n k = some shards) :
    shards = (List.range k).map (fun j =>
      lists.set n (shardSlice lists[n] (ceilDiv lists[n].length k) j)) ∧
    productSize (shards.headD []) =
      ((dims lists).set n 1).prod * ceilDiv lists[n].length k ∧
    productSize lists = ((dims lists).set n 1).prod * lists[n].length ∧
    CalculateTotalPermutations shards =
      wrapInt64 ((shards.length : Int) * (productSize (shards.headD []) : Int)) := by
  rw [ShardLists_of_valid lists n k (by omega) (by exact_mod_cast hn) (by exact_mod_cast hk)] at h
  simp only [Int.toNat_ofNat] at h
  rw [fillShards_eq lists n k hn] at h
  split at h
  · injection h with h
    have hdlen : n < (dims lists).length := by simpa [dims] using hn
    have hdget : (dims lists).getD n 0 = lists[n].length := by
      simp [dims, List.getD_eq_getElem?_getD, List.getElem?_eq_getElem hn]
    obtain ⟨k', rfl⟩ : ∃ k', k = k' + 1 := ⟨k - 1, by omega⟩
    have hhead : shards.headD [] =
        lists.set n (shardSlice lists[n] (ceilDiv lists[n].length (k' + 1)) 0) := by
      rw [← h, List.range_succ_eq_map]; rfl
    have hP0 : productSize (shards.headD []) =
        ((dims lists).set n 1).prod * ceilDiv lists[n].length (k' + 1) := by
      rw [hhead, productSize, dims_set, prod_set_eq n _ _ hdlen, shardSlice_length]
      have := ceilDiv_le lists[n].length (k' + 1) (by omega)
      congr 1
      omega
    have hP : productSize lists = ((dims lists).set n 1).prod * lists[n].length := by
      rw [← prod_set_eq n _ _ hdlen, ← hdget, set_getD_self, productSize]
    refine ⟨h.symm, hP0, hP, ?_⟩
    have hcons : shards = shards.headD [] :: shards.tail := by
      rw [← h, List.range_succ_eq_map]; rfl
    have hlen1 : 1 ≤ (shards.headD []).length := by
      rw [hhead, List.length_set]; omega
    conv_lhs => rw [hcons]
    rw [CalculateTotalPermutations_cons _ _ hlen1, ← hcons]
  · cases h

/-- C18, as the code has it: when `ShardLists` returns shards and the total
`len(shards)` times the product of the lengths of `shards[0]` is below `2^63`,
`CalculateTotalPermutations` of the shards is never smaller than the product of
the original list lengths, and it exceeds that product when every dimension of
the original list set is non-empty and the shard sizes are uneven or
`numShards` is greater than the length of the designated list. -/
theorem total_permutations_over_count (lists : List (List String)) (n k : Nat)
    (hn : n < lists.length) (hk : 0 < k) (shards : List (List (List String)))
    (h : ShardLists lists n k = some shards)
    (hfit : (shards.length : Int) * (productSize (shards.headD []) : Int) < 2 ^ 63) :
    (productSize lists : Int) ≤ CalculateTotalPermutations shards ∧
    ((∀ l ∈ lists, l ≠ []) →
      ((∃ a ∈ shards, ∃ b ∈ shards, (a.getD n []).length ≠ (b.getD n []).length) ∨
        (lists.getD n []).length < k) →
      (productSize lists : Int) < CalculateTotalPermutations shards) := by
  obtain ⟨hshards, hP0, hP, htotal⟩ := total_of_shards lists n k hn hk shards h
  have hget : lists.getD n [] = lists[n] := by
    simp [List.getD_eq_getElem?_getD, List.getElem?_eq_getElem hn]
  have hlen : shards.length = k := by rw [hshards]; simp
  have hw : wrapInt64 ((shards.length : Int) * (productSize (shards.headD []) : Int)) =
      (shards.length : Int) * (productSize (shards.headD []) : Int) :=
    wrapInt64_of_fits _ (Int.mul_nonneg (Int.ofNat_nonneg _) (Int.ofNat_nonneg _)) hfit
  rw [htotal, hw, hlen, hP0, hP]
  have hcover := le_mul_ceilDiv lists[n].length k hk
  constructor
  · have : ((dims lists).set n 1).prod * lists[n].length ≤
        k * (((dims lists).set n 1).prod * ceilDiv lists[n].length k) := by
      calc ((dims lists).set n 1).prod * lists[n].length
          ≤ ((dims lists).set n 1).prod * (k * ceilDiv lists[n].length k) :=
            Nat.mul_le_mul_left _ hcover
        _ = k * (((dims lists).set n 1).prod * ceilDiv lists[n].length k) := by
            rw [Nat.mul_left_comm]
    exact_mod_cast this
  · intro hne hcase
    have hLpos : 0 < lists[n].length :=
      List.length_pos.mpr (hne _ (List.getElem_mem hn))
    have hO : 0 < ((dims lists).set n 1).prod := by
      apply dims_prod_pos
      intro x hx
      rcases List.mem_or_eq_of_mem_set hx with hx | hx
      · exact dims_pos lists hne x hx
      · omega
    have hstrict : lists[n].length < k * ceilDiv lists[n].length k := by
      rcases hcase with ⟨a, ha, b, hb, hab⟩ | hlt
      · rcases Nat.lt_or_ge lists[n].length (k * ceilDiv lists[n].length k) with hlt | hge
        · exact hlt
        · exfalso
          have heq : k * ceilDiv lists[n].length k = lists[n].length := by omega
          have hall : ∀ x ∈ shards, (x.getD n []).length = ceilDiv lists[n].length k := by
            intro x hx
            rw [hshards] at hx
            obtain ⟨j, hj, rfl⟩ := List.mem_map.mp hx
            have hjk : j < k := List.mem_range.mp hj
            have h1 : (j + 1) * ceilDiv lists[n].length k ≤ k * ceilDiv lists[n].length k :=
              Nat.mul_le_mul_right _ hjk
            rw [Nat.succ_mul] at h1
            simp only [List.getD_eq_getElem?_getD, List.getElem?_set_self hn, Option.getD_some,
              shardSlice_length]
            omega
          exact hab (by rw [hall a ha, hall b hb])
      · rw [hget] at hlt
        have hs := ceilDiv_pos lists[n].length k hk hLpos
        have : k * 1 ≤ k * ceilDiv lists[n].length k := Nat.mul_le_mul_left _ hs
        omega
    have : ((dims lists).set n 1).prod * lists[n].length <
        k * (((dims lists).set n 1).prod * ceilDiv lists[n].length k) := by
      calc ((dims lists).set n 1).prod * lists[n].length
          < ((dims lists).set n 1).prod * (k * ceilDiv lists[n].length k) :=
            Nat.mul_lt_mul_of_pos_left hstrict hO
        _ = k * (((dims lists).set n 1).prod * ceilDiv lists[n].length k) := by
            rw [Nat.mul_left_comm]
    exact_mod_cast this

/-- C18 on two shardings without an empty dimension: three entries in two
shards (sizes 2 and 1) give a total of 4 against 3 permutations, and one entry
in two shards (more shards than entries) gives 4 against 2. -/
theorem total_permutations_over_count_witness :
    ((productSize [["a", "b", "c"], ["x"]] : Int) ≤
        CalculateTotalPermutations [[["a", "b"], ["x"]], [["c"], ["x"]]] ∧
      (productSize [["a", "b", "c"], ["x"]] : Int) <
        CalculateTotalPermutations [[["a", "b"], ["x"]], [["c"], ["x"]]]) ∧
    (productSize [["a"], ["x", "y"]] : Int) <
      CalculateTotalPermutations [[["a"], ["x", "y"]], [[], ["x", "y"]]] :=
  ⟨⟨(total_permutations_over_count [["a", "b", "c"], ["x"]] 0 2 (by decide) (by decide)
        [[["a", "b"], ["x"]], [["c"], ["x"]]] (by decide) (by decide)).1,
    (total_permutations_over_count [["a", "b", "c"], ["x"]] 0 2 (by decide) (by decide)
        [[["a", "b"], ["x"]], [["c"], ["x"]]] (by decide) (by decide)).2 (by decide)
      (Or.inl ⟨[["a", "b"], ["x"]], by decide, [["c"], ["x"]], by decide, by decide⟩)⟩,
   (total_permutations_over_count [["a"], ["x", "y"]] 0 2 (by decide) (by decide)
        [[["a"], ["x", "y"]], [[], ["x", "y"]]] (by decide) (by decide)).2 (by decide)
      (Or.inr (by decide))⟩

/-- C18 as stated fails in three ways.  With an empty other dimension the
shards of `["a","b","c"]` have sizes 2 and 1, yet the total and the number of
permutations are both 0.  With an empty designated list one shard is more
shards than entries, yet both numbers are 0.  With three dimensions of `2^21`
entries in one shard the number of permutations is `2^63` and the total is
`-2^63`, which is smaller. -/
theorem total_permutations_not_above :
    (ShardLists [["a", "b", "c"], []] 0 2 = some [[["a", "b"], []], [["c"], []]] ∧
      CalculateTotalPermutations [[["a", "b"], []], [["c"], []]] = 0 ∧
      productSize [["a", "b", "c"], []] = 0) ∧
    (ShardLists [[]] 0 1 = some [[[]]] ∧ CalculateTotalPermutations [[[]]] = 0 ∧
      productSize [[]] = 0) ∧
    (ShardLists
        [List.replicate 2097152 "a", List.replicate 2097152 "a", List.replicate 2097152 "a"]
        (0 : Nat) 1 =
      some [[List.replicate 2097152 "a", List.replicate 2097152 "a",
        List.replicate 2097152 "a"]] ∧
      CalculateTotalPermutations
          [[List.replicate 2097152 "a", List.replicate 2097152 "a", List.replicate 2097152 "a"]]
        = -9223372036854775808 ∧
      (productSize
          [List.replicate 2097152 "a", List.replicate 2097152 "a", List.replicate 2097152 "a"]
        : Int) = 9223372036854775808) := by
  have h := total_permutations_three_big (List.replicate 2097152 "a")
    (List.replicate 2097152 "a") (List.replicate 2097152 "a")
    (List.length_replicate _ _) (List.length_replicate _ _) (List.length_replicate _ _)
  refine ⟨by decide, by decide, ShardLists_one_shard _ 0 (Nat.zero_lt_succ _), h.1, ?_⟩
  have h2 := h.2
  simp only [List.length_singleton, Nat.cast_one, one_mul] at h2
  exact h2

end Permute

namespace Main

/-! ## A list set with zero dimensions -/

/-- Every shard that `ShardLists` returns has at least one dimension, so the
program never builds an iterator on zero dimensions. -/
theorem shard_has_dimension (lists : List (List String)) (n k : Int)
    (shards : List (List (List String))) (h : Permute.ShardLists lists n k = some shards) :
    ∀ shard ∈ shards, 1 ≤ shard.length := by
  by_cases hg : lists.length = 0 ∨ n < 0 ∨ n ≥ lists.length ∨ k ≤ 0
  · rw [Permute.ShardLists, if_pos hg] at h
    injection h with h
    subst h
    intro shard hs
    simp at hs
  · have hn0 : 0 ≤ n := by
      rcases Int.lt_or_le n 0 with h0 | h0
      · exact absurd (Or.inr (Or.inl h0)) hg
      · exact h0
    have hn : n < lists.length := by
      rcases Int.lt_or_le n lists.length with h0 | h0
      · exact h0
      · exact absurd (Or.inr (Or.inr (Or.inl h0))) hg
    have hk : 0 < k := by
      rcases Int.lt_or_le 0 k with h0 | h0
      · exact h0
      · exact absurd (Or.inr (Or.inr (Or.inr h0))) hg
    have hlen : lists.length ≠ 0 := fun h0 => hg (Or.inl h0)
    obtain ⟨_, hall, _⟩ := Permute.ShardLists_returned lists n k hn0 hn hk shards h
    intro shard hs
    rw [(hall shard hs).1]
    omega

/-- C4, as the code has it: a list set with zero dimensions yields zero
permutations because, for every `dimensionIndex` and `numShards`, `ShardLists`
returns no shards for it; `main` then builds no iterator, no run of
`IteratePermutations` sends anything, and `CalculateTotalPermutations` is 0.
Every shard `ShardLists` returns, on any list set, has at least one
dimension. -/
theorem zero_dimensions_yield_no_shards (shardIndex numShards : Int) (fuel : Nat) :
    Permute.ShardLists [] shardIndex numShards = some [] ∧
    mainProducers fuel [] shardIndex numShards = some [] ∧
    Permute.CalculateTotalPermutations [] = 0 ∧
    (∀ (lists : List (List String)) (shards : List (List (List String))),
      Permute.ShardLists lists shardIndex numShards = some shards →
      ∀ shard ∈ shards, 1 ≤ shard.length) := by
  have h : Permute.ShardLists [] shardIndex numShards = some [] := by
    simp [Permute.ShardLists]
  refine ⟨h, ?_, rfl, fun lists shards hs => shard_has_dimension lists _ _ shards hs⟩
  rw [mainProducers, h]
  rfl

/-- C4 at `dimensionIndex = 1`, `numShards = 2`: no shards and no producer for
the empty list set, and both shards of the test's list set have two
dimensions. -/
theorem zero_dimensions_yield_no_shards_witness :
    Permute.ShardLists [] 1 2 = some [] ∧
    mainProducers 5 [] 1 2 = some [] ∧
    (∀ shard ∈ [[["a", "b"], ["1", "2"]], [["a", "b"], ["3", "4"]]], 1 ≤ shard.length) :=
  ⟨(zero_dimensions_yield_no_shards 1 2 5).1, (zero_dimensions_yield_no_shards 1 2 5).2.1,
   (zero_dimensions_yield_no_shards 1 2 5).2.2.2 [["a", "b"], ["1", "2", "3", "4"]]
     [[["a", "b"], ["1", "2"]], [["a", "b"], ["3", "4"]]] (by decide)⟩

/-- C4 as stated fails on an iterator built directly from zero dimensions: its
first `Next` returns the empty permutation with `ok = true`, not `ok = false`,
and after three rounds `IteratePermutations` has sent three empty permutations
and has not returned. -/
theorem next_zero_dimensions_returns_true :
    Permute.Next (Permute.NewPermutationIterator []) =
      some ((some [], true), Permute.NewPermutationIterator []) ∧
    Permute.IteratePermutations 3 (Permute.NewPermutationIterator []) [] =
      Permute.LoopOutcome.running [[], [], []] := by
  decide

end Main
